import Mathlib

/-!
Verification of the flapjak LDAP directory core against its specification.

The Go sources (db.go, filter.go, server.go) are shallowly embedded here:
Go strings become `List Char`, Go slices become `List`, Go maps become
association lists keyed as the code keys them, fallible functions return
`Except`, and the mutable DIT tree becomes a pure rose tree with insertion
returning the new tree.  Definitions keep the names of the Go functions
they embed.
-/

namespace Flapjak

/-- Go strings are modelled as lists of characters. -/
abbrev Str := List Char

/-- strings.ToLower (character-wise lowering; faithful for ASCII input). -/
def lowerStr (s : Str) : Str := s.map Char.toLower

/-- strings.EqualFold: case-insensitive string equality (simple fold,
faithful for ASCII input). -/
def eqFold (a b : Str) : Bool := lowerStr a = lowerStr b

/-- strings.TrimSpace, left part: drop leading whitespace. -/
def trimLeft (s : Str) : Str := s.dropWhile Char.isWhitespace

/-- strings.TrimSpace, right part: drop trailing whitespace. -/
def trimRight (s : Str) : Str := (s.reverse.dropWhile Char.isWhitespace).reverse

/-- strings.TrimSpace: drop leading and trailing whitespace. -/
def trimSpace (s : Str) : Str := trimRight (trimLeft s)

/-- strings.Split(s, ","): split on every comma; Split of the empty string
is a single empty field. -/
def splitComma : Str → List Str
  | [] => [[]]
  | c :: cs =>
    if c = ',' then [] :: splitComma cs
    else
      match splitComma cs with
      | f :: fs => (c :: f) :: fs
      | [] => [[c]]

/-- strings.Join(elems, ","). -/
def joinComma : List Str → Str
  | [] => []
  | [s] => s
  | s :: ss => s ++ ',' :: joinComma ss

/-- db.go: RDN is a single element of a DN, a name/value pair. -/
structure RDN where
  name : Str
  value : Str
deriving DecidableEq, Repr

/-- db.go: DN is a parsed DN string, a slice of RDNs in reverse (root-first)
order of the textual form. -/
abbrev DN := List RDN

/-- db.go RDN.Equal: names compare case-insensitively (strings.EqualFold),
values case-sensitively. -/
def RDN.Equal (rdn rhs : RDN) : Bool :=
  eqFold rdn.name rhs.name && rdn.value = rhs.value

/-- db.go RDN.String: "name=value". -/
def RDN.render (rdn : RDN) : Str := rdn.name ++ '=' :: rdn.value

/-- db.go DN.Equal (slices.EqualFunc with RDN.Equal). -/
def DN.Equal : DN → DN → Bool
  | [], [] => true
  | a :: as_, b :: bs => a.Equal b && DN.Equal as_ bs
  | _, _ => false

/-- db.go DN.IsAncestor: dn is an ancestor of sub iff the components of dn
are a leading prefix of the components of sub (under RDN.Equal); a DN is an
ancestor of itself. -/
def DN.IsAncestor : DN → DN → Bool
  | [], _ => true
  | _ :: _, [] => false
  | a :: as_, b :: bs => a.Equal b && DN.IsAncestor as_ bs

/-- db.go DN.IsEmpty: the root DN has no components. -/
def DN.IsEmpty (dn : DN) : Bool := dn.length = 0

/-- Strict ancestor: ancestor and not equal (statement-side helper). -/
def DN.IsStrictAncestor (a b : DN) : Bool := a.IsAncestor b && !(a.Equal b)

/-- Errors of ParseRDN / NewDN (db.go builds them with fmt.Errorf; the
constructor carries the offending input). -/
inductive RDNErr where
  | invalidRDN (s : Str)
  | noAttrName (s : Str)
deriving DecidableEq, Repr

/-- db.go ParseRDN: strings.Cut at the first '=' (error if there is none),
trim whitespace around name and value, error if the trimmed name is empty.
The value may be empty. -/
def ParseRDN (rdn : Str) : Except RDNErr RDN :=
  let name := rdn.takeWhile (· ≠ '=')
  match rdn.drop name.length with
  | '=' :: val =>
    let result : RDN := ⟨trimSpace name, trimSpace val⟩
    if result.name = [] then .error (.noAttrName rdn) else .ok result
  | _ => .error (.invalidRDN rdn)

/-- db.go NewDN body: parse the comma-separated fields from last to first
(so the resulting DN is root-most-first), stopping at the first error. -/
def parseRDNs : List Str → Except RDNErr DN
  | [] => .ok []
  | c :: cs => do
    let r ← ParseRDN c
    let rest ← parseRDNs cs
    .ok (r :: rest)

/-- db.go NewDN: trim the whole string; empty means the root DN; otherwise
split on commas and parse each RDN, last component first. -/
def NewDN (dnstr : Str) : Except RDNErr DN :=
  let t := trimSpace dnstr
  if t = [] then .ok []
  else parseRDNs (splitComma t).reverse

/-- db.go DN.String: render the RDNs leaf-first, joined by commas. -/
def DN.render (dn : DN) : Str := joinComma (dn.reverse.map RDN.render)

/-! ### Entries and the Directory Information Tree (db.go) -/

/-- db.go Attr: a named multi-valued attribute; Name preserves the case as
originally entered. -/
structure Attr where
  name : Str
  vals : List Str
deriving DecidableEq, Repr

/-- db.go Entry: a DN plus attributes; the Attrs map keys are the lower-case
attribute names (modelled as an association list). -/
structure Entry where
  dn : DN
  attrs : List (Str × Attr)
deriving DecidableEq, Repr

/-- Assignment m[k] = a on the association-list model of a Go map: replace
the binding if the key is present, otherwise add it. -/
def mapInsert (k : Str) (a : Attr) : List (Str × Attr) → List (Str × Attr)
  | [] => [(k, a)]
  | (k2, a2) :: rest =>
    if k2 = k then (k, a) :: rest else (k2, a2) :: mapInsert k a rest

/-- db.go Entry.AddAttr: store attr under its lower-case name, replacing an
existing attribute with the same case-insensitive name. -/
def Entry.AddAttr (e : Entry) (attr : Attr) : Entry :=
  { e with attrs := mapInsert (lowerStr attr.name) attr e.attrs }

/-- db.go Entry.GetAttr: look the attribute up by its lower-case name. -/
def Entry.GetAttr (e : Entry) (attr : Str) : Option Attr :=
  e.attrs.lookup (lowerStr attr)

/-- db.go Attr.HasValue: case-sensitive membership among the values. -/
def Attr.HasValue (a : Attr) (val : Str) : Bool := a.vals.contains val

/-- db.go DITNode: a node of the Directory Information Tree. -/
inductive DITNode where
  | node (entry : Entry) (children : List DITNode)
deriving Repr

/-- The Entry field of a DITNode. -/
def DITNode.entry : DITNode → Entry
  | .node e _ => e

/-- The children field of a DITNode. -/
def DITNode.childrenList : DITNode → List DITNode
  | .node _ cs => cs

/-- db.go NewDB: the DIT root entry (root DSE) with an empty DN; the Go code
writes the literal key "objectClass" into the map (not lower-cased). -/
def NewDB : DITNode :=
  .node
    { dn := [],
      attrs := [("objectClass".toList,
                 ⟨"objectClass".toList, ["top".toList]⟩)] }
    []

/-- The error of DITNode.insert; the Go code returns
fmt.Errorf("duplicate DN: %s", entry.DN). -/
inductive InsertErr where
  | duplicateDN (dn : DN)
deriving DecidableEq, Repr

mutual
/-- db.go (*DITNode).insert: fail on an equal DN; else recurse into the
first child that is an ancestor of the new entry DN; else attach the entry
as a new child, re-parenting the children it is an ancestor of under it. -/
def DITNode.insert (entry : Entry) : DITNode → Except InsertErr DITNode
  | .node ent cs =>
    if entry.dn.Equal ent.dn then .error (.duplicateDN entry.dn)
    else
      match DITNode.insertList entry cs with
      | some r => r.map (fun cs2 => .node ent cs2)
      | none =>
        let newnode : DITNode :=
          .node entry (cs.filter fun c => entry.dn.IsAncestor c.entry.dn)
        let siblings := cs.filter fun c => !(entry.dn.IsAncestor c.entry.dn)
        .ok (.node ent (siblings ++ [newnode]))

/-- The child loop of db.go (*DITNode).insert: recurse into the first child
whose DN is an ancestor of the entry DN (none = no such child), keeping the
child at its position. -/
def DITNode.insertList (entry : Entry) :
    List DITNode → Option (Except InsertErr (List DITNode))
  | [] => none
  | c :: cs =>
    if c.entry.dn.IsAncestor entry.dn then some ((c.insert entry).map (· :: cs))
    else (DITNode.insertList entry cs).map (fun r => r.map (c :: ·))
end

/-- db.go (*DB).AddEntries: insert the entries in order, stopping at the
first error; entries inserted before the failure stay in the tree, so the
result is the tree together with the optional error. -/
def AddEntries (dit : DITNode) : List Entry → DITNode × Option InsertErr
  | [] => (dit, none)
  | e :: es =>
    match dit.insert e with
    | .error err => (dit, some err)
    | .ok dit2 => AddEntries dit2 es

/-- A sequence of individual insert calls in which a failed insert leaves
the tree unchanged (in the Go code an erroring insert performs no mutation)
and later inserts still proceed. -/
def insertSeq (dit : DITNode) : List Entry → DITNode
  | [] => dit
  | e :: es =>
    match dit.insert e with
    | .error _ => insertSeq dit es
    | .ok dit2 => insertSeq dit2 es

mutual
/-- db.go (*DITNode).Find: exact-DN lookup; prune when the node DN is not
an ancestor of the target; recurse into the first child that is. -/
def DITNode.Find (dn : DN) : DITNode → Option DITNode
  | .node e cs =>
    if e.dn.Equal dn then some (.node e cs)
    else if !(e.dn.IsAncestor dn) then none
    else DITNode.findList dn cs

/-- The child loop of db.go (*DITNode).Find: return child.Find for the
first child whose DN is an ancestor of the target, nil if none is. -/
def DITNode.findList (dn : DN) : List DITNode → Option DITNode
  | [] => none
  | c :: cs =>
    if c.entry.dn.IsAncestor dn then c.Find dn else DITNode.findList dn cs
end

mutual
/-- db.go (*DITNode).All / walk: the node itself followed by all of its
descendants, depth-first. -/
def DITNode.allNodes : DITNode → List DITNode
  | .node e cs => .node e cs :: DITNode.allNodesList cs

/-- walk over a list of subtrees, in order. -/
def DITNode.allNodesList : List DITNode → List DITNode
  | [] => []
  | t :: ts => t.allNodes ++ DITNode.allNodesList ts
end

/-- The DNs of all nodes of a tree (statement-side helper). -/
def DITNode.allDNs (t : DITNode) : List DN := t.allNodes.map fun n => n.entry.dn

/-- The DNs of all nodes of a list of subtrees. -/
def DITNode.allDNsList (cs : List DITNode) : List DN :=
  (DITNode.allNodesList cs).map fun n => n.entry.dn

/-- The sibling invariant relation: neither DN is an ancestor of the other. -/
def sibOK (a b : DITNode) : Prop :=
  a.entry.dn.IsAncestor b.entry.dn = false ∧
  b.entry.dn.IsAncestor a.entry.dn = false

/-- Structural invariant of the DIT: every child DN is strictly below the
parent DN, and siblings are mutually non-ancestral. -/
inductive DITInv : DITNode → Prop where
  | mk (e : Entry) (cs : List DITNode)
      (hanc : ∀ c ∈ cs, e.dn.IsAncestor c.entry.dn = true ∧
                        e.dn.Equal c.entry.dn = false)
      (hsib : cs.Pairwise sibOK)
      (hrec : ∀ c ∈ cs, DITInv c) : DITInv (.node e cs)

/-- Strong induction over the nested tree type. -/
theorem DITNode.inductStrong {motive : DITNode → Prop}
    (h : ∀ e cs, (∀ c ∈ cs, motive c) → motive (.node e cs)) :
    ∀ t, motive t
  | .node e cs => h e cs (fun c hc => DITNode.inductStrong h c)
decreasing_by
  have := List.sizeOf_lt_of_mem hc
  simp only [DITNode.node.sizeOf_spec]
  omega

mutual
/-- Decidable equality for the nested tree type. -/
def DITNode.decEq : (a b : DITNode) → Decidable (a = b)
  | .node e1 cs1, .node e2 cs2 =>
    match DITNode.decEqList cs1 cs2 with
    | .isTrue hcs =>
      if he : e1 = e2 then .isTrue (by rw [he, hcs])
      else .isFalse (by intro h; cases h; exact he rfl)
    | .isFalse hcs => .isFalse (by intro h; cases h; exact hcs rfl)

/-- Decidable equality for lists of tree nodes. -/
def DITNode.decEqList : (a b : List DITNode) → Decidable (a = b)
  | [], [] => .isTrue rfl
  | a :: as_, b :: bs =>
    match DITNode.decEq a b, DITNode.decEqList as_ bs with
    | .isTrue h1, .isTrue h2 => .isTrue (by rw [h1, h2])
    | .isFalse h1, _ => .isFalse (by intro h; cases h; exact h1 rfl)
    | .isTrue _, .isFalse h2 => .isFalse (by intro h; cases h; exact h2 rfl)
  | [], _ :: _ => .isFalse (by intro h; cases h)
  | _ :: _, [] => .isFalse (by intro h; cases h)
end

instance : DecidableEq DITNode := DITNode.decEq

/-- Sample entry dc=com (for witnesses). -/
def entDC : Entry := ⟨[⟨"dc".toList, "com".toList⟩], []⟩

/-- Sample entry ou=people,dc=com (for witnesses). -/
def entOU : Entry :=
  ⟨[⟨"dc".toList, "com".toList⟩, ⟨"ou".toList, "people".toList⟩], []⟩

/-- Sample entry uid=alice,ou=people,dc=com (for witnesses). -/
def entUID : Entry :=
  ⟨[⟨"dc".toList, "com".toList⟩, ⟨"ou".toList, "people".toList⟩,
    ⟨"uid".toList, "alice".toList⟩], []⟩

/-- Whether the node holding entry DN x is the parent of the node holding
entry DN y in tree t (statement-side helper; DNs matched with DN.Equal). -/
def isParentDN (t : DITNode) (x y : DN) : Bool :=
  t.allNodes.any fun n =>
    n.entry.dn.Equal x && n.childrenList.any fun c => c.entry.dn.Equal y

/-- Order-free characterization of the parent relation: x and y are node
DNs, y is not the root DN, x is a strict ancestor of y, and no node DN lies
strictly between them. -/
def parentCharT (t : DITNode) (x y : DN) : Prop :=
  (∃ n ∈ t.allNodes, n.entry.dn.Equal x = true) ∧
  (∃ m ∈ t.allNodes, m.entry.dn.Equal y = true) ∧
  t.entry.dn.Equal y = false ∧
  x.IsStrictAncestor y = true ∧
  ∀ z ∈ t.allDNs,
    ¬(x.IsStrictAncestor z = true ∧ z.IsStrictAncestor y = true)

/-- Well-formed DN strings for the round-trip property: empty (the root
DN), or a comma-separated list of components each containing an '=' with a
name that is non-empty after trimming. -/
def wellFormedDN (s : Str) : Bool :=
  (trimSpace s).isEmpty ||
  (splitComma (trimSpace s)).all fun comp =>
    comp.contains '=' && !((trimSpace (comp.takeWhile (· ≠ '='))).isEmpty)

/-- RDNs as produced by ParseRDN: both fields trimmed, the name non-empty
and free of '=', both fields free of commas (statement-side helper). -/
def goodRDN (r : RDN) : Prop :=
  trimLeft r.name = r.name ∧ trimRight r.name = r.name ∧
  trimLeft r.value = r.value ∧ trimRight r.value = r.value ∧
  r.name ≠ [] ∧ ('=' ∉ r.name) ∧ (',' ∉ r.name) ∧ (',' ∉ r.value)

/-! ### The filter engine (filter.go) -/

/-- filter.go FilterNode variants: Presence, Equality, And, Or, Not. -/
inductive Filter where
  | presence (attr : Str)
  | equality (attr value : Str)
  | and (nodes : List Filter)
  | or (nodes : List Filter)
  | not (node : Filter)
deriving Repr

mutual
/-- filter.go Match methods of the five FilterNode kinds. -/
def Filter.Match : Filter → Entry → Bool
  | .presence a, e => (e.GetAttr a).isSome
  | .equality a v, e =>
    match e.GetAttr a with
    | some attr => attr.HasValue v
    | none => false
  | .and ns, e => Filter.MatchAll ns e
  | .or ns, e => Filter.MatchAny ns e
  | .not n, e => !(Filter.Match n e)

/-- filter.go And.Match loop: all children match. -/
def Filter.MatchAll : List Filter → Entry → Bool
  | [], _ => true
  | n :: ns, e => Filter.Match n e && Filter.MatchAll ns e

/-- filter.go Or.Match loop: some child matches. -/
def Filter.MatchAny : List Filter → Entry → Bool
  | [], _ => false
  | n :: ns, e => Filter.Match n e || Filter.MatchAny ns e
end

mutual
/-- Statement-side: every And/Or node of the AST has at least one child. -/
def Filter.noEmptyAndOr : Filter → Bool
  | .presence _ => true
  | .equality _ _ => true
  | .and ns => !ns.isEmpty && Filter.noEmptyAndOrList ns
  | .or ns => !ns.isEmpty && Filter.noEmptyAndOrList ns
  | .not n => Filter.noEmptyAndOr n

/-- noEmptyAndOr over a list of nodes. -/
def Filter.noEmptyAndOrList : List Filter → Bool
  | [] => true
  | n :: ns => Filter.noEmptyAndOr n && Filter.noEmptyAndOrList ns
end

/-- filter.go parse errors (the sentinel error values). -/
inductive PErr where
  | internalErr
  | unexpectedEOF
  | unexpectedInput
  | unimplementedOp
  | invalidAttrName
  | emptyAttrName
  | emptyAttrValue
  | missingOperation
deriving DecidableEq, Repr

/-- filter.go cursor.peek: the next rune, or unexpected-EOF. -/
def peek : Str → Except PErr Char
  | [] => .error .unexpectedEOF
  | c :: _ => .ok c

/-- filter.go cursor.expectRune: consume exactly the expected rune. -/
def expectRune (r : Char) : Str → Except PErr Str
  | [] => .error .unexpectedEOF
  | c :: rest => if c = r then .ok rest else .error .unexpectedInput

/-- filter.go isOp. -/
def isOp (op : Str) : Bool :=
  op = ['='] || op = ['<', '='] || op = ['>', '='] || op = ['~', '=']

/-- filter.go isValidAttrRune (unicode classes modelled by Char.isAlpha
and Char.isDigit). -/
def isValidAttrRune (pos : Nat) (r : Char) : Bool :=
  if pos = 0 then r.isAlpha else r = '.' || r.isAlpha || r.isDigit

/-- filter.go validateAttrName. -/
def validateAttrName (rs : Str) : Except PErr Str :=
  if rs = [] then .error .emptyAttrName
  else if rs.enum.all (fun p => isValidAttrRune p.1 p.2) then .ok rs
  else .error .invalidAttrName

/-- filter.go parseOpFilter: scan to ')', find the first '=', classify the
operator, validate the attribute name and build a Presence or Equality
node (other operators are unimplemented). -/
def parseOpFilter (l : Str) : Except PErr (Filter × Str) := do
  let rs := l.takeWhile (· ≠ ')')
  let rest ← expectRune ')' (l.drop rs.length)
  match rs.findIdx? (· = '=') with
  | none => .error .missingOperation
  | some idx => do
    let twoChar := decide (idx > 0) && isOp ((rs.drop (idx - 1)).take 2)
    let attrRs := if twoChar then rs.take (idx - 1) else rs.take idx
    let op := if twoChar then (rs.drop (idx - 1)).take 2 else ['=']
    let value := rs.drop (idx + 1)
    let attr ← validateAttrName attrRs
    if value = [] then .error .emptyAttrValue
    else if op = ['='] && value = ['*'] then .ok (.presence attr, rest)
    else if op = ['='] then .ok (.equality attr value, rest)
    else .error .unimplementedOp

mutual
/-- filter.go parseFilter, recursing on a fuel bound (the Go code recurses
on the input directly; the fuel in Parse below over-provisions so the
unexpectedEOF fuel case is unreachable for terminating inputs). -/
def parseFilter : Nat → Str → Except PErr (Filter × Str)
  | 0, _ => .error .unexpectedEOF
  | fuel+1, l => do
    let l1 ← expectRune '(' l
    let c ← peek l1
    match c with
    | '&' => parseAndOrFilter fuel '&' l1
    | '|' => parseAndOrFilter fuel '|' l1
    | '!' => parseNotFilter fuel l1
    | _ => parseOpFilter l1

/-- filter.go parseAndOrFilter: consume the op, parse the children, and
reject an empty child list before building the And/Or node. -/
def parseAndOrFilter : Nat → Char → Str → Except PErr (Filter × Str)
  | 0, _, _ => .error .unexpectedEOF
  | fuel+1, op, l => do
    let l1 ← expectRune op l
    let (ns, rest) ← parseAndOrChildren fuel l1
    if ns.isEmpty then .error .unexpectedInput
    else
      match op with
      | '&' => .ok (.and ns, rest)
      | '|' => .ok (.or ns, rest)
      | _ => .error .internalErr

/-- The child loop of filter.go parseAndOrFilter: filters while the next
rune is '(', then expect the closing ')'. -/
def parseAndOrChildren : Nat → Str → Except PErr (List Filter × Str)
  | 0, _ => .error .unexpectedEOF
  | fuel+1, l => do
    let c ← peek l
    if c = '(' then do
      let (n, r) ← parseFilter fuel l
      let (ns, r2) ← parseAndOrChildren fuel r
      .ok (n :: ns, r2)
    else do
      let r ← expectRune ')' l
      .ok (([] : List Filter), r)

/-- filter.go parseNotFilter. -/
def parseNotFilter : Nat → Str → Except PErr (Filter × Str)
  | 0, _ => .error .unexpectedEOF
  | fuel+1, l => do
    let l1 ← expectRune '!' l
    let (n, r) ← parseFilter fuel l1
    let r2 ← expectRune ')' r
    .ok (.not n, r2)
end

/-- filter.go Parse: trim the filter string, parse one filter, and demand
that the input is fully consumed. -/
def Parse (s : Str) : Except PErr Filter :=
  let t := trimSpace s
  match parseFilter (2 * t.length + 2) t with
  | .error e => .error e
  | .ok (n, rest) => if rest = [] then .ok n else .error .unexpectedInput

/-- Wellformedness of an Entry attrs map as produced by the code: each key
is the lower-cased attribute name, and keys are distinct (Go map). -/
def EntryWF (e : Entry) : Prop :=
  (∀ p ∈ e.attrs, p.1 = lowerStr p.2.name) ∧ (e.attrs.map Prod.fst).Nodup

/-! ### NewEntryFromMap (db.go) -/

/-- A scalar fed to db.go NewEntryFromMap: a Go `any` that is a string, a
float64 (carried here as the decimal string strconv.FormatFloat renders it
to), a bool, or anything else (`other`), which NewEntryFromMap rejects. -/
inductive JAtom where
  | str (s : Str)
  | num (rendered : Str)
  | boolean (b : Bool)
  | other
deriving DecidableEq, Repr

/-- A value of the input map of db.go NewEntryFromMap: either a scalar or
an array of scalars (the `val.([]any)` branch). -/
inductive JVal where
  | atom (a : JAtom)
  | arr (l : List JAtom)
deriving DecidableEq, Repr

/-- db.go NewEntryFromMap: `attrVal, ok := val.([]any)`, wrapping a scalar
into a one-element slice when the assertion fails. -/
def JVal.asList : JVal → List JAtom
  | .atom a => [a]
  | .arr l => l

/-- The errors db.go NewEntryFromMap can return, plus `panicked` for the
runtime panic of indexing `attrVal[0]` on an empty array. -/
inductive EErr where
  | dnMultiple
  | dnNotString
  | dnAlreadySet
  | rdnErr (e : RDNErr)
  | dnEmpty
  | dupAttr (attrName existingName : Str)
  | invalidType
  | missingDN
  | missingObjectClass
  | panicked
deriving DecidableEq, Repr

/-- The value-conversion switch in db.go NewEntryFromMap: strings are kept,
float64s are rendered by strconv.FormatFloat (the rendering is carried in
the `num` payload), bools are rendered by strconv.FormatBool, anything else
is an invalid-type error. -/
def atomVal : JAtom → Except EErr Str
  | .str s => .ok s
  | .num r => .ok r
  | .boolean true => .ok "true".toList
  | .boolean false => .ok "false".toList
  | .other => .error .invalidType

/-- The inner `for _, aval := range attrVal` loop of db.go NewEntryFromMap,
collecting the rendered values in order. -/
def atomVals : List JAtom → Except EErr (List Str)
  | [] => .ok []
  | a :: rest =>
    match atomVal a with
    | .error err => .error err
    | .ok v =>
      match atomVals rest with
      | .error err => .error err
      | .ok vs => .ok (v :: vs)

/-- One iteration of the `for attrName, val := range attrs` loop of db.go
NewEntryFromMap, acting on the entry built so far. -/
def procPair (e : Entry) (attrName : Str) (val : JVal) : Except EErr Entry :=
  if lowerStr attrName = "dn".toList then
    if 1 < val.asList.length then .error .dnMultiple
    else
      match val.asList with
      | [] => .error .panicked
      | .str dnstr :: _ =>
        if trimSpace dnstr = [] then .error .dnNotString
        else if !e.dn.IsEmpty then .error .dnAlreadySet
        else
          match NewDN dnstr with
          | .error err => .error (.rdnErr err)
          | .ok dn => if dn.IsEmpty then .error .dnEmpty else .ok { e with dn := dn }
      | _ :: _ => .error .dnNotString
  else
    match e.GetAttr attrName with
    | some attr => .error (.dupAttr attrName attr.name)
    | none =>
      match atomVals val.asList with
      | .error err => .error err
      | .ok vs => .ok (e.AddAttr { name := attrName, vals := vs })

/-- The `for attrName, val := range attrs` loop of db.go NewEntryFromMap;
Go map iteration order is arbitrary, so the input is an arbitrarily ordered
list of the map's key/value pairs. -/
def procPairs (e : Entry) : List (Str × JVal) → Except EErr Entry
  | [] => .ok e
  | p :: rest =>
    match procPair e p.1 p.2 with
    | .error err => .error err
    | .ok e2 => procPairs e2 rest

/-- db.go NewEntryFromMap: run the loop from an empty entry, then require a
DN and an objectClass attribute. -/
def NewEntryFromMap (m : List (Str × JVal)) : Except EErr Entry :=
  match procPairs { dn := [], attrs := [] } m with
  | .error err => .error err
  | .ok e =>
    if e.dn.IsEmpty then .error .missingDN
    else
      match e.GetAttr "objectClass".toList with
      | none => .error .missingObjectClass
      | some _ => .ok e

/-- A map value acceptable as the `dn` element: a single string whose trim
is nonempty and that parses to a nonempty DN. -/
def dnOK (v : JVal) : Prop :=
  ∃ s, v.asList = [JAtom.str s] ∧ trimSpace s ≠ [] ∧ ∃ d, NewDN s = .ok d ∧ d ≠ []

/-! ### Credential verification (Entry.Authenticate) -/

/-- Modelled from the spec: the credential-verification error kinds
(entry-not-eligible, authentication-failed, malformed-base64,
digest-too-short, missing-salt), named as in db_test.go. -/
inductive AuthErr where
  | invalidEntryForAuth
  | authenticationFailed
  | malformedBase64
  | hashtextTooShort
  | missingSalt
deriving DecidableEq, Repr

/-- Modelled from the spec: the three supported salted-digest schemes
(short, medium and long digest sizes), named SSHA, SSHA256 and SSHA512 in
db_test.go. -/
inductive Scheme where
  | ssha
  | ssha256
  | ssha512
deriving DecidableEq, Repr

/-- Modelled from the spec: each scheme's fixed digest size in bytes
(sha1 is 20, sha256 is 32, sha512 is 64). -/
def Scheme.digestLen : Scheme → Nat
  | .ssha => 20
  | .ssha256 => 32
  | .ssha512 => 64

/-- Modelled from the spec: scheme selection by the literal scheme name. -/
def schemeOfName (n : Str) : Option Scheme :=
  if n = "SSHA".toList then some .ssha
  else if n = "SSHA256".toList then some .ssha256
  else if n = "SSHA512".toList then some .ssha512
  else none

/-- Modelled from the spec: a credential value must start with `\x7b` and
contain a matching `\x7d`; the scheme name and the remaining base64 text
are extracted. -/
def splitScheme : Str → Option (Str × Str)
  | [] => none
  | c :: t =>
    if c = '\x7b' ∧ '\x7d' ∈ t then
      some (t.takeWhile (· ≠ '\x7d'), (t.dropWhile (· ≠ '\x7d')).drop 1)
    else none

/-- Modelled from the spec: the 6-bit value of one standard-base64 alphabet
character. -/
def b64Val (c : Char) : Option Nat :=
  if 'A' ≤ c ∧ c ≤ 'Z' then some (c.toNat - 65)
  else if 'a' ≤ c ∧ c ≤ 'z' then some (c.toNat - 97 + 26)
  else if '0' ≤ c ∧ c ≤ '9' then some (c.toNat - 48 + 52)
  else if c = '+' then some 62
  else if c = '/' then some 63
  else none

/-- Modelled from the spec: strict standard base64 decoding in 4-character
groups with optional `=` padding on the final group, yielding bytes. -/
def b64Decode : Str → Option (List Nat)
  | [] => some []
  | a :: b :: c :: d :: rest =>
    match b64Val a, b64Val b with
    | some va, some vb =>
      if c = '=' then
        if d = '=' ∧ rest = [] then some [va * 4 + vb / 16] else none
      else
        match b64Val c with
        | some vc =>
          if d = '=' then
            if rest = [] then some [va * 4 + vb / 16, vb % 16 * 16 + vc / 4]
            else none
          else
            match b64Val d with
            | some vd =>
              match b64Decode rest with
              | some tail =>
                some ([va * 4 + vb / 16, vb % 16 * 16 + vc / 4, vc % 4 * 64 + vd] ++ tail)
              | none => none
            | none => none
        | none => none
    | _, _ => none
  | _ => none

/-- Modelled from the spec: the byte sequence of a textual secret (code
points; for ASCII secrets this is the UTF-8 byte sequence). -/
def strBytes (s : Str) : List Nat := s.map Char.toNat

/-- Modelled from the spec: the fixed allow-list of account-like object
classes (posixAccount, posixGroup, shadowAccount, per db_test.go). -/
def eligible (e : Entry) : Bool :=
  match e.GetAttr "objectClass".toList with
  | some a =>
    a.vals.any fun v =>
      v == "posixAccount".toList || v == "posixGroup".toList ||
        v == "shadowAccount".toList
  | none => false

/-- Modelled from the spec: the stored credential values of the entry's
userPassword attribute (empty when the attribute is absent). -/
def pwVals (e : Entry) : List Str :=
  match e.GetAttr "userPassword".toList with
  | some a => a.vals
  | none => []

/-- Modelled from the spec: check one stored credential value against the
secret, with the digest function abstracted: a missing wrapper or an
unrecognized scheme is a non-match; failed base64, a decode shorter than
the digest size, and an empty salt are fatal errors; otherwise the stored
digest is compared with hash(secret, salt). -/
def authValue (hashFn : Scheme → List Nat → List Nat) (secret : Str) (v : Str) :
    Except AuthErr Bool :=
  match splitScheme v with
  | none => .ok false
  | some (name, b64) =>
    match schemeOfName name with
    | none => .ok false
    | some sch =>
      match b64Decode b64 with
      | none => .error .malformedBase64
      | some dec =>
        if dec.length < sch.digestLen then .error .hashtextTooShort
        else if dec.drop sch.digestLen = [] then .error .missingSalt
        else
          .ok (dec.take sch.digestLen ==
            hashFn sch (strBytes secret ++ dec.drop sch.digestLen))

/-- Modelled from the spec: scan the credential values in order; the first
match succeeds, a fatal error aborts immediately, and exhausting the values
is an authentication-failed error. -/
def authLoop (hashFn : Scheme → List Nat → List Nat) (secret : Str) :
    List Str → Except AuthErr Unit
  | [] => .error .authenticationFailed
  | v :: rest =>
    match authValue hashFn secret v with
    | .error e => .error e
    | .ok true => .ok ()
    | .ok false => authLoop hashFn secret rest

/-- Modelled from the spec: Entry.Authenticate requires an eligible object
class and then scans the stored credential values. -/
def Entry.Authenticate (hashFn : Scheme → List Nat → List Nat) (e : Entry)
    (secret : Str) : Except AuthErr Unit :=
  if eligible e then authLoop hashFn secret (pwVals e)
  else .error .invalidEntryForAuth

/-- Modelled from the spec: a stored value matches the secret when it has a
recognized scheme wrapper, its base64 text decodes, the salt (the bytes
after the digest) is nonempty, and the leading digest-size bytes equal the
scheme's hash of secret and salt. -/
def valueMatches (hashFn : Scheme → List Nat → List Nat) (secret : Str)
    (v : Str) : Prop :=
  ∃ name b64 sch dec,
    splitScheme v = some (name, b64) ∧
    schemeOfName name = some sch ∧
    b64Decode b64 = some dec ∧
    sch.digestLen ≤ dec.length ∧
    dec.drop sch.digestLen ≠ [] ∧
    dec.take sch.digestLen = hashFn sch (strBytes secret ++ dec.drop sch.digestLen)


/-! ### Basic properties of the DN model -/

theorem eqFold_refl (a : Str) : eqFold a a = true := by
  simp [eqFold]

theorem eqFold_symm {a b : Str} (h : eqFold a b = true) : eqFold b a = true := by
  simp [eqFold] at *
  exact h.symm

theorem RDN.Equal_rfl (r : RDN) : r.Equal r = true := by
  simp [RDN.Equal, eqFold_refl]

theorem RDN.Equal_symmetric {a b : RDN} (h : a.Equal b = true) : b.Equal a = true := by
  simp [RDN.Equal, eqFold] at *
  exact ⟨h.1.symm, h.2.symm⟩

theorem RDN.Equal_transitive {a b c : RDN} (h1 : a.Equal b = true)
    (h2 : b.Equal c = true) : a.Equal c = true := by
  simp [RDN.Equal, eqFold] at *
  exact ⟨h1.1.trans h2.1, h1.2.trans h2.2⟩

theorem DN.Equal_refl (dn : DN) : dn.Equal dn = true := by
  induction dn with
  | nil => rfl
  | cons a as_ ih => simp [DN.Equal, RDN.Equal_rfl, ih]

theorem DN.Equal_symm : ∀ {a b : DN}, a.Equal b = true → b.Equal a = true
  | [], [], _ => rfl
  | _ :: _, _ :: _, h => by
    simp [DN.Equal] at *
    exact ⟨RDN.Equal_symmetric h.1, DN.Equal_symm h.2⟩

theorem DN.Equal_trans : ∀ {a b c : DN}, a.Equal b = true → b.Equal c = true →
    a.Equal c = true
  | [], [], [], _, _ => rfl
  | _ :: _, _ :: _, _ :: _, h1, h2 => by
    simp [DN.Equal] at *
    exact ⟨RDN.Equal_transitive h1.1 h2.1, DN.Equal_trans h1.2 h2.2⟩

theorem DN.Equal_comm (a b : DN) : a.Equal b = b.Equal a := by
  cases h : b.Equal a with
  | true => exact DN.Equal_symm h
  | false =>
    by_contra hc
    simp only [Bool.not_eq_false] at hc
    rw [DN.Equal_symm hc] at h
    cases h

theorem DN.Equal_length : ∀ {a b : DN}, a.Equal b = true → a.length = b.length
  | [], [], _ => rfl
  | _ :: _, _ :: _, h => by
    simp [DN.Equal] at h
    simp [DN.Equal_length h.2]

theorem DN.IsAncestor_refl (dn : DN) : dn.IsAncestor dn = true := by
  induction dn with
  | nil => rfl
  | cons a as_ ih => simp [DN.IsAncestor, RDN.Equal_rfl, ih]

theorem DN.IsAncestor_of_Equal : ∀ {a b : DN}, a.Equal b = true →
    a.IsAncestor b = true
  | [], [], _ => rfl
  | _ :: _, _ :: _, h => by
    simp [DN.Equal] at h
    simp [DN.IsAncestor, h.1, DN.IsAncestor_of_Equal h.2]

theorem DN.IsAncestor_trans : ∀ {a b c : DN}, a.IsAncestor b = true →
    b.IsAncestor c = true → a.IsAncestor c = true
  | [], _, _, _, _ => rfl
  | _ :: _, _ :: _, _ :: _, h1, h2 => by
    simp [DN.IsAncestor] at *
    exact ⟨RDN.Equal_transitive h1.1 h2.1, DN.IsAncestor_trans h1.2 h2.2⟩

theorem DN.IsAncestor_length_le : ∀ {a b : DN}, a.IsAncestor b = true →
    a.length ≤ b.length
  | [], _, _ => Nat.zero_le _
  | _ :: _, _ :: _, h => by
    simp [DN.IsAncestor] at h
    simpa using DN.IsAncestor_length_le h.2

theorem DN.IsAncestor_antisymm : ∀ {a b : DN}, a.IsAncestor b = true →
    b.IsAncestor a = true → a.Equal b = true
  | [], [], _, _ => rfl
  | [], _ :: _, _, h2 => by simp [DN.IsAncestor] at h2
  | _ :: _, [], h1, _ => by simp [DN.IsAncestor] at h1
  | _ :: _, _ :: _, h1, h2 => by
    simp [DN.IsAncestor] at h1 h2
    simp [DN.Equal, h1.1, DN.IsAncestor_antisymm h1.2 h2.2]

/-- Two ancestors of the same DN are comparable. -/
theorem DN.IsAncestor_comparable : ∀ {a b c : DN}, a.IsAncestor c = true →
    b.IsAncestor c = true → a.IsAncestor b = true ∨ b.IsAncestor a = true
  | [], _, _, _, _ => .inl rfl
  | _ :: _, [], _, _, _ => .inr rfl
  | a :: as_, b :: bs, c :: cs, h1, h2 => by
    simp [DN.IsAncestor] at h1 h2
    have hab : a.Equal b = true := RDN.Equal_transitive h1.1 (RDN.Equal_symmetric h2.1)
    rcases DN.IsAncestor_comparable h1.2 h2.2 with h | h
    · exact .inl (by simp [DN.IsAncestor, hab, h])
    · exact .inr (by simp [DN.IsAncestor, RDN.Equal_symmetric hab, h])

theorem RDN.Equal_congruence {a a2 b b2 : RDN} (h1 : a.Equal a2 = true)
    (h2 : b.Equal b2 = true) : a.Equal b = a2.Equal b2 := by
  by_cases h : a.Equal b = true
  · exact h.trans
      (RDN.Equal_transitive (RDN.Equal_transitive (RDN.Equal_symmetric h1) h) h2).symm
  · simp only [Bool.not_eq_true] at h
    rw [h]
    by_contra hc
    replace hc : a2.Equal b2 = true := by
      cases hq : a2.Equal b2 with
      | true => rfl
      | false => exact absurd hq.symm hc
    exact absurd
      (RDN.Equal_transitive (RDN.Equal_transitive h1 hc) (RDN.Equal_symmetric h2))
      (by simp [h])

theorem DN.IsAncestor_congr : ∀ {a a2 b b2 : DN}, a.Equal a2 = true →
    b.Equal b2 = true → a.IsAncestor b = a2.IsAncestor b2
  | [], [], _, _, _, _ => rfl
  | [], _ :: _, _, _, h1, _ => by simp [DN.Equal] at h1
  | _ :: _, [], _, _, h1, _ => by simp [DN.Equal] at h1
  | _ :: _, _ :: _, [], [], _, _ => rfl
  | _ :: _, _ :: _, [], _ :: _, _, h2 => by simp [DN.Equal] at h2
  | _ :: _, _ :: _, _ :: _, [], _, h2 => by simp [DN.Equal] at h2
  | a :: as_, a2 :: as2, b :: bs, b2 :: bs2, h1, h2 => by
    simp [DN.Equal] at h1 h2
    have tail := DN.IsAncestor_congr h1.2 h2.2
    simp [DN.IsAncestor, tail, RDN.Equal_congruence h1.1 h2.1]

theorem DN.Equal_congr {a a2 b b2 : DN} (h1 : a.Equal a2 = true)
    (h2 : b.Equal b2 = true) : a.Equal b = a2.Equal b2 := by
  by_cases h : a.Equal b = true
  · exact h.trans
      (DN.Equal_trans (DN.Equal_trans (DN.Equal_symm h1) h) h2).symm
  · simp only [Bool.not_eq_true] at h
    rw [h]
    by_contra hc
    replace hc : a2.Equal b2 = true := by
      cases hq : a2.Equal b2 with
      | true => rfl
      | false => exact absurd hq.symm hc
    exact absurd
      (DN.Equal_trans (DN.Equal_trans h1 hc) (DN.Equal_symm h2))
      (by simp [h])


/-! ### Structural lemmas about the DIT -/

theorem DITNode.allNodes_node (e : Entry) (cs : List DITNode) :
    (DITNode.node e cs).allNodes = .node e cs :: DITNode.allNodesList cs := by
  rw [DITNode.allNodes]

theorem DITNode.allNodesList_nil : DITNode.allNodesList [] = [] := by
  rw [DITNode.allNodesList]

theorem DITNode.allNodesList_cons (t : DITNode) (ts : List DITNode) :
    DITNode.allNodesList (t :: ts) = t.allNodes ++ DITNode.allNodesList ts := by
  rw [DITNode.allNodesList]

theorem DITNode.self_mem_allNodes : ∀ t : DITNode, t ∈ t.allNodes
  | .node e cs => by rw [DITNode.allNodes_node]; exact .head _

theorem DITNode.allNodesList_append : ∀ l1 l2 : List DITNode,
    DITNode.allNodesList (l1 ++ l2) =
      DITNode.allNodesList l1 ++ DITNode.allNodesList l2
  | [], l2 => by simp [DITNode.allNodesList_nil]
  | t :: ts, l2 => by
    simp [DITNode.allNodesList_cons, DITNode.allNodesList_append ts l2]

theorem DITNode.mem_allNodesList {n : DITNode} : ∀ {cs : List DITNode},
    n ∈ DITNode.allNodesList cs ↔ ∃ c ∈ cs, n ∈ c.allNodes
  | [] => by simp [DITNode.allNodesList_nil]
  | c :: cs => by
    simp only [DITNode.allNodesList_cons, List.mem_append,
      @DITNode.mem_allNodesList n cs, List.mem_cons]
    constructor
    · rintro (h | ⟨c2, hc2, hn⟩)
      · exact ⟨c, .inl rfl, h⟩
      · exact ⟨c2, .inr hc2, hn⟩
    · rintro ⟨c2, rfl | hc2, hn⟩
      · exact .inl hn
      · exact .inr ⟨c2, hc2, hn⟩

theorem DITNode.allNodesList_eq_flatten : ∀ cs : List DITNode,
    DITNode.allNodesList cs = (cs.map DITNode.allNodes).flatten
  | [] => by simp [DITNode.allNodesList_nil]
  | t :: ts => by
    simp [DITNode.allNodesList_cons, DITNode.allNodesList_eq_flatten ts]

/-- allNodesList maps permutations to permutations. -/
theorem DITNode.allNodesList_perm {cs1 cs2 : List DITNode}
    (h : cs1.Perm cs2) :
    (DITNode.allNodesList cs1).Perm (DITNode.allNodesList cs2) := by
  rw [DITNode.allNodesList_eq_flatten, DITNode.allNodesList_eq_flatten]
  exact (h.map _).flatten

/-- The children of any node of the tree are nodes of the tree. -/
theorem DITNode.child_mem_allNodes : ∀ {t : DITNode} {n c : DITNode},
    n ∈ t.allNodes → c ∈ n.childrenList → c ∈ t.allNodes := by
  intro t
  induction t using DITNode.inductStrong with
  | h e cs ih =>
    intro n c hn hc
    rw [DITNode.allNodes_node] at hn ⊢
    rcases List.mem_cons.1 hn with rfl | hn
    · simp only [DITNode.childrenList] at hc
      exact .tail _ (DITNode.mem_allNodesList.2
        ⟨c, hc, DITNode.self_mem_allNodes c⟩)
    · obtain ⟨c2, hc2, hn2⟩ := DITNode.mem_allNodesList.1 hn
      exact .tail _ (DITNode.mem_allNodesList.2 ⟨c2, hc2, ih c2 hc2 hn2 hc⟩)

/-! ### Characterizing one step of insert -/

theorem DITNode.insertList_eq_none {e : Entry} : ∀ {cs : List DITNode},
    DITNode.insertList e cs = none ↔
      ∀ c ∈ cs, c.entry.dn.IsAncestor e.dn = false
  | [] => by simp [DITNode.insertList]
  | c :: cs => by
    rw [DITNode.insertList]
    by_cases h : c.entry.dn.IsAncestor e.dn = true
    · simp [h]
    · simp only [Bool.not_eq_true] at h
      simp [h, @DITNode.insertList_eq_none e cs]

theorem DITNode.insertList_eq_some {e : Entry} : ∀ {cs : List DITNode}
    {r : Except InsertErr (List DITNode)},
    DITNode.insertList e cs = some r →
    ∃ pre c post, cs = pre ++ c :: post ∧
      (∀ p ∈ pre, p.entry.dn.IsAncestor e.dn = false) ∧
      c.entry.dn.IsAncestor e.dn = true ∧
      r = (c.insert e).map fun c2 => pre ++ c2 :: post
  | [], r => by rw [DITNode.insertList]; intro h; cases h
  | c :: cs, r => by
    rw [DITNode.insertList]
    by_cases h : c.entry.dn.IsAncestor e.dn = true
    · simp only [h, if_pos]
      intro hr
      refine ⟨[], c, cs, rfl, by simp, h, ?_⟩
      cases hr.symm
      cases c.insert e <;> rfl
    · simp only [Bool.not_eq_true] at h
      simp only [h, Bool.false_eq_true, if_false, Option.map_eq_some']
      rintro ⟨r2, hr2, rfl⟩
      obtain ⟨pre, c2, post, rfl, hpre, hc2, hr⟩ :=
        DITNode.insertList_eq_some hr2
      refine ⟨c :: pre, c2, post, rfl, ?_, hc2, ?_⟩
      · intro p hp
        rcases List.mem_cons.1 hp with rfl | hp
        · exact h
        · exact hpre p hp
      · cases hr.symm
        cases c2.insert e <;> rfl

/-- A successful insert permutes the node DNs to the new DN plus the old
ones. -/
theorem DITNode.insert_allDNs_perm : ∀ {t t2 : DITNode} {e : Entry},
    t.insert e = .ok t2 → t2.allDNs.Perm (e.dn :: t.allDNs) := by
  intro t
  induction t using DITNode.inductStrong with
  | h ent cs ih =>
    intro t2 e hok
    rw [DITNode.insert] at hok
    by_cases heq : e.dn.Equal ent.dn = true
    · simp [heq] at hok
    · simp only [Bool.not_eq_true] at heq
      simp only [heq, Bool.false_eq_true, if_false] at hok
      cases hins : DITNode.insertList e cs with
      | some r =>
        rw [hins] at hok
        obtain ⟨pre, c, post, rfl, hpre, hc, rfl⟩ :=
          DITNode.insertList_eq_some hins
        cases hcr : c.insert e with
        | error err => rw [hcr] at hok; cases hok
        | ok c2 =>
          rw [hcr] at hok
          simp only [Except.map_ok, Except.ok.injEq] at hok
          cases hok
          have ihc := ih c (by simp) hcr
          simp only [DITNode.allDNs, DITNode.allNodes_node,
            DITNode.allNodesList_append, DITNode.allNodesList_cons,
            DITNode.entry, List.map_cons, List.map_append, List.append_assoc]
          have h1 : ((DITNode.allNodesList pre).map (fun n => n.entry.dn) ++
              (c2.allNodes.map (fun n => n.entry.dn) ++
               (DITNode.allNodesList post).map fun n => n.entry.dn)).Perm
              ((DITNode.allNodesList pre).map (fun n => n.entry.dn) ++
              (e.dn :: (c.allNodes.map (fun n => n.entry.dn) ++
               (DITNode.allNodesList post).map fun n => n.entry.dn))) := by
            refine List.Perm.append_left _ ?_
            have := ihc.append
              (List.Perm.refl
                ((DITNode.allNodesList post).map fun n => n.entry.dn))
            simpa using this
          refine ((h1.trans List.perm_middle).cons ent.dn).trans ?_
          exact List.Perm.swap e.dn ent.dn _
      | none =>
        rw [hins] at hok
        simp only [Except.ok.injEq] at hok
        cases hok
        simp only [DITNode.allDNs, DITNode.allNodes_node,
          DITNode.allNodesList_append, DITNode.allNodesList_cons,
          DITNode.allNodesList_nil, DITNode.entry, List.map_cons,
          List.map_append, List.append_nil]
        have hpart : ((cs.filter fun c => !(e.dn.IsAncestor c.entry.dn)) ++
            (cs.filter fun c => e.dn.IsAncestor c.entry.dn)).Perm cs := by
          have := List.filter_append_perm
            (fun c => !(e.dn.IsAncestor c.entry.dn)) cs
          simpa using this
        have h3 : ((DITNode.allNodesList
              (cs.filter fun c => !(e.dn.IsAncestor c.entry.dn))).map
                (fun n => n.entry.dn) ++
            (DITNode.allNodesList
              (cs.filter fun c => e.dn.IsAncestor c.entry.dn)).map
                fun n => n.entry.dn).Perm
            ((DITNode.allNodesList cs).map fun n => n.entry.dn) := by
          rw [← List.map_append, ← DITNode.allNodesList_append]
          exact (DITNode.allNodesList_perm hpart).map _
        refine ((List.perm_middle.trans (h3.cons e.dn)).cons ent.dn).trans ?_
        exact List.Perm.swap e.dn ent.dn _

/-! ### The DIT invariant and its preservation by insert -/

/-- Inversion of the invariant at the root. -/
theorem DITInv.inv_node {e : Entry} {cs : List DITNode}
    (h : DITInv (.node e cs)) :
    (∀ c ∈ cs, e.dn.IsAncestor c.entry.dn = true ∧
               e.dn.Equal c.entry.dn = false) ∧
    cs.Pairwise sibOK ∧ (∀ c ∈ cs, DITInv c) := by
  cases h with
  | mk e cs hanc hsib hrec => exact ⟨hanc, hsib, hrec⟩

/-- Under the invariant, the root DN is an ancestor of every node DN of the
tree. -/
theorem DITInv.root_anc : ∀ {t : DITNode}, DITInv t →
    ∀ n ∈ t.allNodes, t.entry.dn.IsAncestor n.entry.dn = true := by
  intro t
  induction t using DITNode.inductStrong with
  | h e cs ih =>
    intro hinv n hn
    obtain ⟨hanc, _, hrec⟩ := hinv.inv_node
    rw [DITNode.allNodes_node] at hn
    rcases List.mem_cons.1 hn with rfl | hn
    · exact DN.IsAncestor_refl _
    · obtain ⟨c, hc, hnc⟩ := DITNode.mem_allNodesList.1 hn
      have := ih c hc (hrec c hc) n hnc
      exact DN.IsAncestor_trans (by simpa [DITNode.entry] using (hanc c hc).1)
        this

/-- The invariant holds for every node of an invariant tree. -/
theorem DITInv.of_mem : ∀ {t : DITNode}, DITInv t →
    ∀ n ∈ t.allNodes, DITInv n := by
  intro t
  induction t using DITNode.inductStrong with
  | h e cs ih =>
    intro hinv n hn
    rw [DITNode.allNodes_node] at hn
    rcases List.mem_cons.1 hn with rfl | hn
    · exact hinv
    · obtain ⟨c, hc, hnc⟩ := DITNode.mem_allNodesList.1 hn
      exact ih c hc (hinv.inv_node.2.2 c hc) n hnc

/-- insert never changes the entry at the root of the tree it returns. -/
theorem DITNode.insert_entry_eq : ∀ {t t2 : DITNode} {e : Entry},
    t.insert e = .ok t2 → t2.entry = t.entry
  | .node ent cs, t2, e => by
    rw [DITNode.insert]
    by_cases heq : e.dn.Equal ent.dn = true
    · simp [heq]
    · simp only [Bool.not_eq_true] at heq
      simp only [heq, Bool.false_eq_true, if_false]
      cases hins : DITNode.insertList e cs with
      | some r =>
        cases r with
        | error err => intro h; cases h
        | ok cs2 =>
          intro h
          simp only [Except.map_ok, Except.ok.injEq] at h
          cases h
          rfl
      | none =>
        intro h
        simp only [Except.ok.injEq] at h
        cases h
        rfl

/-- sibOK depends only on the root DNs of its arguments. -/
theorem sibOK_congr {a b a2 b2 : DITNode} (ha : a2.entry.dn = a.entry.dn)
    (hb : b2.entry.dn = b.entry.dn) (h : sibOK a b) : sibOK a2 b2 := by
  unfold sibOK at *
  rw [ha, hb]
  exact h

/-- Replacing a child by one with the same root DN keeps the sibling
pairwise invariant. -/
theorem pairwise_sibOK_replace {pre post : List DITNode} {c c2 : DITNode}
    (hdn : c2.entry.dn = c.entry.dn)
    (h : (pre ++ c :: post).Pairwise sibOK) :
    (pre ++ c2 :: post).Pairwise sibOK := by
  rw [List.pairwise_append] at h ⊢
  obtain ⟨h1, h2, h3⟩ := h
  rw [List.pairwise_cons] at h2 ⊢
  refine ⟨h1, ⟨?_, h2.2⟩, ?_⟩
  · intro b hb
    exact sibOK_congr hdn rfl (h2.1 b hb)
  · intro a ha b hb
    rcases List.mem_cons.1 hb with rfl | hb
    · exact sibOK_congr rfl hdn (h3 a ha c (.head _))
    · exact h3 a ha b (.tail _ hb)

/-- A successful insert below a node whose DN is an ancestor of the new
entry DN preserves the invariant. -/
theorem DITInv.insert : ∀ {t t2 : DITNode} {e : Entry}, DITInv t →
    t.entry.dn.IsAncestor e.dn = true → t.insert e = .ok t2 → DITInv t2 := by
  intro t
  induction t using DITNode.inductStrong with
  | h ent cs ih =>
    intro t2 e hinv hroot hok
    obtain ⟨hanc, hsib, hrec⟩ := hinv.inv_node
    rw [DITNode.insert] at hok
    by_cases heq : e.dn.Equal ent.dn = true
    · simp [heq] at hok
    · simp only [Bool.not_eq_true] at heq
      simp only [heq, Bool.false_eq_true, if_false] at hok
      cases hins : DITNode.insertList e cs with
      | some r =>
        rw [hins] at hok
        obtain ⟨pre, c, post, rfl, hpre, hc, rfl⟩ :=
          DITNode.insertList_eq_some hins
        cases hcr : c.insert e with
        | error err => rw [hcr] at hok; cases hok
        | ok c2 =>
          rw [hcr] at hok
          simp only [Except.map_ok, Except.ok.injEq] at hok
          cases hok
          have hc2dn : c2.entry.dn = c.entry.dn := by
            rw [DITNode.insert_entry_eq hcr]
          have hc2inv : DITInv c2 :=
            ih c (by simp) (hrec c (by simp)) hc hcr
          refine DITInv.mk ent _ ?_ ?_ ?_
          · intro x hx
            rcases List.mem_append.1 hx with hx | hx
            · exact hanc x (by simp [hx])
            · rcases List.mem_cons.1 hx with rfl | hx
              · rw [hc2dn]
                exact hanc c (by simp)
              · exact hanc x (by simp [hx])
          · exact pairwise_sibOK_replace hc2dn hsib
          · intro x hx
            rcases List.mem_append.1 hx with hx | hx
            · exact hrec x (by simp [hx])
            · rcases List.mem_cons.1 hx with rfl | hx
              · exact hc2inv
              · exact hrec x (by simp [hx])
      | none =>
        rw [hins] at hok
        simp only [Except.ok.injEq] at hok
        cases hok
        have hnone := DITNode.insertList_eq_none.1 hins
        simp only [DITNode.entry] at hroot
        refine DITInv.mk ent _ ?_ ?_ ?_
        · intro x hx
          rcases List.mem_append.1 hx with hx | hx
          · exact hanc x (List.mem_of_mem_filter hx)
          · rcases List.mem_cons.1 hx with rfl | hx
            · have : ent.dn.Equal e.dn = false := (DN.Equal_comm _ _).trans heq
              simpa [DITNode.entry] using ⟨hroot, this⟩
            · cases hx
        · rw [List.pairwise_append]
          refine ⟨hsib.sublist (List.filter_sublist cs), ?_, ?_⟩
          · simp
          · intro a ha b hb
            rcases List.mem_cons.1 hb with rfl | hb
            · have ha2 := List.mem_of_mem_filter ha
              have hafilt := List.of_mem_filter ha
              simp only [Bool.not_eq_true', Bool.not_eq_false] at hafilt
              constructor
              · simpa [DITNode.entry] using hnone a ha2
              · simpa [DITNode.entry, Bool.not_eq_true] using hafilt
            · cases hb
        · intro x hx
          rcases List.mem_append.1 hx with hx | hx
          · exact hrec x (List.mem_of_mem_filter hx)
          · rcases List.mem_cons.1 hx with rfl | hx
            · refine DITInv.mk e _ ?_ ?_ ?_
              · intro c hcm
                have hcs := List.mem_of_mem_filter hcm
                have hfilt := List.of_mem_filter hcm
                refine ⟨hfilt, ?_⟩
                by_contra hq
                simp only [Bool.not_eq_false] at hq
                have : c.entry.dn.IsAncestor e.dn = true :=
                  DN.IsAncestor_of_Equal (DN.Equal_symm hq)
                rw [hnone c hcs] at this
                cases this
              · exact hsib.sublist (List.filter_sublist cs)
              · intro c hcm
                exact hrec c (List.mem_of_mem_filter hcm)
            · cases hx

/-- The invariant of the initial tree. -/
theorem DITInv_NewDB : DITInv NewDB := by
  refine DITInv.mk _ _ ?_ ?_ ?_ <;> simp

/-- A sequence of insert calls (erroring ones leave the tree unchanged)
preserves the invariant and the root entry. -/
theorem insertSeq_inv : ∀ (es : List Entry) (t : DITNode), DITInv t →
    t.entry.dn = [] →
    DITInv (insertSeq t es) ∧ (insertSeq t es).entry.dn = []
  | [], t, hinv, hroot => by rw [insertSeq]; exact ⟨hinv, hroot⟩
  | e :: es, t, hinv, hroot => by
    rw [insertSeq]
    cases hi : t.insert e with
    | error err => exact insertSeq_inv es t hinv hroot
    | ok t2 =>
      have h2 : DITInv t2 := by
        refine hinv.insert ?_ hi
        rw [hroot]
        rfl
      have hr2 : t2.entry.dn = [] := by
        rw [DITNode.insert_entry_eq hi, hroot]
      exact insertSeq_inv es t2 h2 hr2

/-- The two C2 conjuncts follow from the invariant at every node. -/
theorem DITInv.c2_parts {t : DITNode} (hinv : DITInv t) :
    ∀ n ∈ t.allNodes,
      (∀ d ∈ DITNode.allNodesList n.childrenList,
         n.entry.dn.IsAncestor d.entry.dn = true) ∧
      n.childrenList.Pairwise sibOK := by
  intro n hn
  have hninv := hinv.of_mem n hn
  cases n with
  | node e cs =>
    obtain ⟨hanc, hsib, hrec⟩ := hninv.inv_node
    simp only [DITNode.childrenList, DITNode.entry]
    refine ⟨?_, hsib⟩
    intro d hd
    obtain ⟨c, hc, hdc⟩ := DITNode.mem_allNodesList.1 hd
    exact DN.IsAncestor_trans (hanc c hc).1 ((hrec c hc).root_anc d hdc)

/-- C2: starting from the tree created by NewDB, after every sequence of
insert operations (successful or returning a duplicate-DN error, which
leaves the tree unchanged), every node DN is an ancestor of each of its
descendant node DNs, and no child DN of a node is an ancestor of a sibling
child DN. -/
theorem C2_insert_invariant (es : List Entry) :
    ∀ n ∈ (insertSeq NewDB es).allNodes,
      (∀ d ∈ DITNode.allNodesList n.childrenList,
         n.entry.dn.IsAncestor d.entry.dn = true) ∧
      n.childrenList.Pairwise sibOK := by
  have h := insertSeq_inv es NewDB DITInv_NewDB rfl
  exact h.1.c2_parts

/-- Witness for C2: the invariant instantiated at the root of the tree
obtained by inserting the sample dc entry into a fresh NewDB. -/
theorem C2_insert_invariant_witness :
    (∀ d ∈ DITNode.allNodesList (insertSeq NewDB [entDC]).childrenList,
       (insertSeq NewDB [entDC]).entry.dn.IsAncestor d.entry.dn = true) ∧
    (insertSeq NewDB [entDC]).childrenList.Pairwise sibOK :=
  C2_insert_invariant [entDC] (insertSeq NewDB [entDC]) (by decide)

/-! ### Success and duplicate-error conditions for insert -/

theorem DITNode.allDNs_node (e : Entry) (cs : List DITNode) :
    (DITNode.node e cs).allDNs = e.dn :: DITNode.allDNsList cs := by
  simp [DITNode.allDNs, DITNode.allDNsList, DITNode.allNodes_node,
    DITNode.entry]

theorem DITNode.mem_allDNsList {d : DN} {cs : List DITNode} :
    d ∈ DITNode.allDNsList cs ↔ ∃ c ∈ cs, d ∈ c.allDNs := by
  simp only [DITNode.allDNsList, DITNode.allDNs, List.mem_map,
    DITNode.mem_allNodesList]
  constructor
  · rintro ⟨n, ⟨c, hc, hn⟩, rfl⟩
    exact ⟨c, hc, n, hn, rfl⟩
  · rintro ⟨c, hc, n, hn, rfl⟩
    exact ⟨n, ⟨c, hc, hn⟩, rfl⟩

theorem DITNode.rootDN_mem_allDNs (t : DITNode) : t.entry.dn ∈ t.allDNs :=
  List.mem_map_of_mem _ (DITNode.self_mem_allNodes t)

/-- Under the invariant, the DN of every node of a subtree listed among a
node's children is below that child root DN; in particular membership in a
child allDNs propagates to the whole tree allDNs. -/
theorem DITNode.mem_allDNs_of_child {d : DN} {c : DITNode} {e : Entry}
    {cs : List DITNode} (hc : c ∈ cs) (hd : d ∈ c.allDNs) :
    d ∈ (DITNode.node e cs).allDNs := by
  rw [DITNode.allDNs_node]
  exact .tail _ (DITNode.mem_allDNsList.2 ⟨c, hc, hd⟩)

/-- An erroring insert always reports a duplicate of the inserted DN. -/
theorem DITNode.insert_error_eq : ∀ {t : DITNode} {e : Entry} {err : InsertErr},
    t.insert e = .error err → err = .duplicateDN e.dn := by
  intro t
  induction t using DITNode.inductStrong with
  | h ent cs ih =>
    intro e err herr
    rw [DITNode.insert] at herr
    by_cases heq : e.dn.Equal ent.dn = true
    · simp only [heq, if_true, Except.error.injEq] at herr
      exact herr.symm
    · simp only [Bool.not_eq_true] at heq
      simp only [heq, Bool.false_eq_true, if_false] at herr
      cases hins : DITNode.insertList e cs with
      | some r =>
        rw [hins] at herr
        obtain ⟨pre, c, post, rfl, hpre, hc, rfl⟩ :=
          DITNode.insertList_eq_some hins
        cases hcr : c.insert e with
        | error err2 =>
          rw [hcr] at herr
          simp only [Except.map_error, Except.error.injEq] at herr
          cases herr
          exact ih c (by simp) hcr
        | ok c2 =>
          rw [hcr] at herr
          simp only [Except.map_ok] at herr
          cases herr
      | none => rw [hins] at herr; cases herr

/-- If no node DN equals the new DN (and the root is above it), insert
succeeds. -/
theorem DITNode.insert_ok_of_fresh : ∀ {t : DITNode} {e : Entry}, DITInv t →
    t.entry.dn.IsAncestor e.dn = true →
    (∀ d ∈ t.allDNs, d.Equal e.dn = false) →
    ∃ t2, t.insert e = .ok t2 := by
  intro t
  induction t using DITNode.inductStrong with
  | h ent cs ih =>
    intro e hinv hroot hfresh
    obtain ⟨hanc, hsib, hrec⟩ := hinv.inv_node
    have hne : e.dn.Equal ent.dn = false := by
      rw [DN.Equal_comm]
      exact hfresh _ (DITNode.rootDN_mem_allDNs _)
    rw [DITNode.insert]
    simp only [hne, Bool.false_eq_true, if_false]
    cases hins : DITNode.insertList e cs with
    | some r =>
      obtain ⟨pre, c, post, rfl, hpre, hc, rfl⟩ :=
        DITNode.insertList_eq_some hins
      have hcin : c ∈ pre ++ c :: post := by simp
      obtain ⟨c2, hc2⟩ := ih c hcin (hrec c hcin) hc
        (fun d hd => hfresh d (DITNode.mem_allDNs_of_child hcin hd))
      exact ⟨_, by rw [hc2]; rfl⟩
    | none => exact ⟨_, rfl⟩

/-- If some node DN equals the new DN (and the root is above it), insert
fails with the duplicate-DN error for the inserted DN. -/
theorem DITNode.insert_error_of_dup : ∀ {t : DITNode} {e : Entry}, DITInv t →
    t.entry.dn.IsAncestor e.dn = true →
    (∃ d ∈ t.allDNs, d.Equal e.dn = true) →
    t.insert e = .error (.duplicateDN e.dn) := by
  intro t
  induction t using DITNode.inductStrong with
  | h ent cs ih =>
    intro e hinv hroot hdup
    obtain ⟨hanc, hsib, hrec⟩ := hinv.inv_node
    obtain ⟨d, hd, hde⟩ := hdup
    rw [DITNode.insert]
    by_cases heq : e.dn.Equal ent.dn = true
    · simp [heq]
    · simp only [Bool.not_eq_true] at heq
      simp only [heq, Bool.false_eq_true, if_false]
      rw [DITNode.allDNs_node] at hd
      rcases List.mem_cons.1 hd with rfl | hd
      · rw [DN.Equal_comm] at hde
        rw [hde] at heq
        cases heq
      · obtain ⟨cstar, hcstar, hdstar⟩ := DITNode.mem_allDNsList.1 hd
        obtain ⟨nstar, hnstar, rfl⟩ := List.mem_map.1 hdstar
        have hcanc : cstar.entry.dn.IsAncestor e.dn = true := by
          have h1 := (hrec cstar hcstar).root_anc nstar hnstar
          rwa [DN.IsAncestor_congr (DN.Equal_refl _) hde] at h1
        cases hins : DITNode.insertList e cs with
        | none =>
          rw [DITNode.insertList_eq_none.1 hins cstar hcstar] at hcanc
          cases hcanc
        | some r =>
          obtain ⟨pre, c, post, hcs, hpre, hc, rfl⟩ :=
            DITNode.insertList_eq_some hins
          have hcin : c ∈ cs := by rw [hcs]; simp
          have hceq : c = cstar := by
            by_contra hne
            have hs := (List.Pairwise.forall
              (fun a b h => ⟨h.2, h.1⟩) hsib) hcin hcstar hne
            rcases DN.IsAncestor_comparable hc hcanc with h | h
            · rw [hs.1] at h; cases h
            · rw [hs.2] at h; cases h
          have herr : c.insert e = .error (.duplicateDN e.dn) := by
            refine ih c hcin (hrec c hcin) hc ⟨nstar.entry.dn, ?_, hde⟩
            rw [hceq]
            exact List.mem_map_of_mem _ hnstar
          rw [herr]
          rfl

/-! ### Correctness of Find -/

theorem DITNode.findList_eq_some {d : DN} : ∀ {cs : List DITNode}
    {n : DITNode}, DITNode.findList d cs = some n →
    ∃ c ∈ cs, c.Find d = some n
  | [], n => by rw [DITNode.findList]; intro h; cases h
  | c :: cs, n => by
    rw [DITNode.findList]
    by_cases h : c.entry.dn.IsAncestor d = true
    · simp only [h, if_true]
      intro hf
      exact ⟨c, .head _, hf⟩
    · simp only [Bool.not_eq_true] at h
      simp only [h, Bool.false_eq_true, if_false]
      intro hf
      obtain ⟨c2, hc2, hf2⟩ := DITNode.findList_eq_some hf
      exact ⟨c2, .tail _ hc2, hf2⟩

/-- Find only returns nodes of the tree, with exactly the queried DN. -/
theorem DITNode.find_sound : ∀ {t n : DITNode} {d : DN},
    t.Find d = some n → n ∈ t.allNodes ∧ n.entry.dn.Equal d = true := by
  intro t
  induction t using DITNode.inductStrong with
  | h e cs ih =>
    intro n d hf
    rw [DITNode.Find] at hf
    by_cases heq : e.dn.Equal d = true
    · simp only [heq, if_true, Option.some.injEq] at hf
      cases hf
      exact ⟨DITNode.self_mem_allNodes _, by simpa [DITNode.entry] using heq⟩
    · simp only [Bool.not_eq_true] at heq
      simp only [heq, Bool.false_eq_true, if_false] at hf
      by_cases hanc : e.dn.IsAncestor d = true
      · simp only [hanc, Bool.not_true, Bool.false_eq_true, if_false] at hf
        obtain ⟨c, hc, hfc⟩ := DITNode.findList_eq_some hf
        obtain ⟨hn, hnd⟩ := ih c hc hfc
        exact ⟨by
          rw [DITNode.allNodes_node]
          exact .tail _ (DITNode.mem_allNodesList.2 ⟨c, hc, hn⟩), hnd⟩
      · simp only [Bool.not_eq_true] at hanc
        simp only [hanc, Bool.not_false, if_true] at hf
        cases hf

/-- Step lemma: under the sibling invariant, the first ancestor child is
the one whose subtree holds the target. -/
theorem DITNode.findList_step {d : DN} {n cstar : DITNode} :
    ∀ {cs : List DITNode}, cs.Pairwise sibOK → cstar ∈ cs →
    cstar.entry.dn.IsAncestor d = true → cstar.Find d = some n →
    DITNode.findList d cs = some n
  | [], _, hmem, _, _ => by cases hmem
  | c :: cs, hsib, hmem, hanc, hfind => by
    rw [DITNode.findList]
    by_cases h : c.entry.dn.IsAncestor d = true
    · simp only [h, if_true]
      by_cases hceq : cstar = c
      · rw [← hceq]; exact hfind
      · rcases List.mem_cons.1 hmem with rfl | hmem2
        · exact absurd rfl hceq
        · have hs := (List.pairwise_cons.1 hsib).1 cstar hmem2
          rcases DN.IsAncestor_comparable h hanc with hcmp | hcmp
          · rw [hs.1] at hcmp; cases hcmp
          · rw [hs.2] at hcmp; cases hcmp
    · simp only [Bool.not_eq_true] at h
      simp only [h, Bool.false_eq_true, if_false]
      rcases List.mem_cons.1 hmem with rfl | hmem2
      · rw [hanc] at h; cases h
      · exact DITNode.findList_step (List.pairwise_cons.1 hsib).2 hmem2
          hanc hfind

/-- The allDNs of one child form a sublist of the allDNs of the child
list. -/
theorem DITNode.allDNs_child_sublist {c : DITNode} : ∀ {cs : List DITNode},
    c ∈ cs → c.allDNs.Sublist (DITNode.allDNsList cs)
  | [], hmem => by cases hmem
  | c2 :: cs, hmem => by
    have : DITNode.allDNsList (c2 :: cs) =
        c2.allDNs ++ DITNode.allDNsList cs := by
      simp [DITNode.allDNsList, DITNode.allNodesList_cons, DITNode.allDNs]
    rw [this]
    rcases List.mem_cons.1 hmem with rfl | hmem2
    · exact List.sublist_append_left _ _
    · exact (DITNode.allDNs_child_sublist hmem2).trans
        (List.sublist_append_right _ _)

/-- Under the invariant and pairwise-distinct node DNs, Find locates the
node carrying an equal DN. -/
theorem DITNode.find_complete : ∀ {t n : DITNode} {d : DN}, DITInv t →
    t.allDNs.Pairwise (fun a b => a.Equal b = false) →
    n ∈ t.allNodes → n.entry.dn.Equal d = true → t.Find d = some n := by
  intro t
  induction t using DITNode.inductStrong with
  | h ent cs ih =>
    intro n d hinv hdist hn hnd
    obtain ⟨hanc, hsib, hrec⟩ := hinv.inv_node
    rw [DITNode.allNodes_node] at hn
    rw [DITNode.Find]
    rcases List.mem_cons.1 hn with rfl | hn
    · simp only [DITNode.entry] at hnd
      simp [hnd]
    · obtain ⟨cstar, hcstar, hncstar⟩ := DITNode.mem_allNodesList.1 hn
      have hndn : n.entry.dn ∈ DITNode.allDNsList cs :=
        DITNode.mem_allDNsList.2
          ⟨cstar, hcstar, List.mem_map_of_mem _ hncstar⟩
      rw [DITNode.allDNs_node] at hdist
      have hents : ent.dn.Equal n.entry.dn = false :=
        (List.pairwise_cons.1 hdist).1 _ hndn
      have heq : ent.dn.Equal d = false := by
        by_contra hq
        simp only [Bool.not_eq_false] at hq
        rw [DN.Equal_trans hq (DN.Equal_symm hnd)] at hents
        cases hents
      simp only [heq, Bool.false_eq_true, if_false]
      have hancd : ent.dn.IsAncestor d = true := by
        have h1 : ent.dn.IsAncestor n.entry.dn = true := by
          refine DN.IsAncestor_trans (hanc cstar hcstar).1 ?_
          exact (hrec cstar hcstar).root_anc n hncstar
        rwa [DN.IsAncestor_congr (DN.Equal_refl _) hnd] at h1
      simp only [hancd, Bool.not_true, Bool.false_eq_true, if_false]
      have hcanc : cstar.entry.dn.IsAncestor d = true := by
        have h1 := (hrec cstar hcstar).root_anc n hncstar
        rwa [DN.IsAncestor_congr (DN.Equal_refl _) hnd] at h1
      refine DITNode.findList_step hsib hcstar hcanc ?_
      refine ih cstar hcstar (hrec cstar hcstar) ?_ hncstar hnd
      exact List.Pairwise.sublist
        ((DITNode.allDNs_child_sublist hcstar).trans
          (List.sublist_cons_self _ _)) hdist

/-! ### Properties of AddEntries on success -/

theorem AddEntries_ok_props : ∀ {es : List Entry} {t t2 : DITNode},
    AddEntries t es = (t2, none) → DITInv t → t.entry.dn = [] →
    t.allDNs.Pairwise (fun a b => a.Equal b = false) →
    DITInv t2 ∧ t2.entry.dn = [] ∧
    t2.allDNs.Pairwise (fun a b => a.Equal b = false)
  | [], t, t2, h, hinv, hroot, hdist => by
    rw [AddEntries] at h
    cases h
    exact ⟨hinv, hroot, hdist⟩
  | e :: es, t, t2, h, hinv, hroot, hdist => by
    rw [AddEntries] at h
    cases hi : t.insert e with
    | error err => rw [hi] at h; cases h
    | ok t3 =>
      rw [hi] at h
      have hrootanc : t.entry.dn.IsAncestor e.dn = true := by
        rw [hroot]; rfl
      have hfresh : ∀ d ∈ t.allDNs, d.Equal e.dn = false := by
        intro d hd
        by_contra hq
        simp only [Bool.not_eq_false] at hq
        rw [DITNode.insert_error_of_dup hinv hrootanc ⟨d, hd, hq⟩] at hi
        cases hi
      have hperm := DITNode.insert_allDNs_perm hi
      have hdist3 : t3.allDNs.Pairwise (fun a b => a.Equal b = false) := by
        rw [List.Perm.pairwise_iff
          (fun hxy => by rwa [DN.Equal_comm]) hperm]
        refine List.Pairwise.cons ?_ hdist
        intro d hd
        rw [DN.Equal_comm]
        exact hfresh d hd
      refine AddEntries_ok_props h (hinv.insert hrootanc hi) ?_ hdist3
      rw [DITNode.insert_entry_eq hi, hroot]

theorem NewDB_root_dn : NewDB.entry.dn = [] := rfl

theorem NewDB_allDNs_pairwise :
    NewDB.allDNs.Pairwise (fun a b => a.Equal b = false) := by
  simp [NewDB, DITNode.allDNs_node, DITNode.allDNsList,
    DITNode.allNodesList_nil]

/-- C3: in a tree built by NewDB plus successful inserts, Find returns
exactly the node whose entry DN equals the query DN, and nil when no node
DN equals it (even when the query is a proper ancestor of stored DNs). -/
theorem C3_find_exact (es : List Entry) (t : DITNode)
    (h : AddEntries NewDB es = (t, none)) (d : DN) :
    (∀ n ∈ t.allNodes, n.entry.dn.Equal d = true → t.Find d = some n) ∧
    ((∀ n ∈ t.allNodes, n.entry.dn.Equal d = false) → t.Find d = none) := by
  obtain ⟨hinv, hroot, hdist⟩ :=
    AddEntries_ok_props h DITInv_NewDB NewDB_root_dn NewDB_allDNs_pairwise
  constructor
  · intro n hn hnd
    exact DITNode.find_complete hinv hdist hn hnd
  · intro hnone
    cases hf : t.Find d with
    | none => rfl
    | some n =>
      obtain ⟨hn, hnd⟩ := DITNode.find_sound hf
      rw [hnone n hn] at hnd
      cases hnd

/-! ### Batch insertion: composition and the partial-failure contract -/

theorem DN.Equal_nil_of_not_empty {d : DN} (h : d.IsEmpty = false) :
    DN.Equal [] d = false := by
  cases d with
  | nil => simp [DN.IsEmpty] at h
  | cons a as_ => rfl

theorem AddEntries_append : ∀ {l1 l2 : List Entry} {t : DITNode},
    (AddEntries t l1).2 = none →
    AddEntries t (l1 ++ l2) = AddEntries (AddEntries t l1).1 l2
  | [], l2, t, _ => by simp [AddEntries]
  | e :: l1, l2, t, h => by
    cases hi : t.insert e with
    | error err =>
      rw [AddEntries, hi] at h
      simp at h
    | ok t2 =>
      have hL : AddEntries t ((e :: l1) ++ l2) = AddEntries t2 (l1 ++ l2) := by
        rw [List.cons_append, AddEntries, hi]
      have hR : AddEntries t (e :: l1) = AddEntries t2 l1 := by
        rw [AddEntries, hi]
      rw [AddEntries, hi] at h
      rw [hL, hR]
      exact AddEntries_append h

/-- Inserting entries with pairwise distinct DNs, all fresh for the tree,
succeeds. -/
theorem AddEntries_ok_of_fresh : ∀ {es : List Entry} {t : DITNode},
    DITInv t → t.entry.dn = [] →
    t.allDNs.Pairwise (fun a b => a.Equal b = false) →
    (∀ e ∈ es, ∀ d ∈ t.allDNs, d.Equal e.dn = false) →
    (es.map Entry.dn).Pairwise (fun a b => a.Equal b = false) →
    (AddEntries t es).2 = none
  | [], t, _, _, _, _, _ => by rw [AddEntries]
  | e :: es, t, hinv, hroot, hdistT, hfresh, hdistE => by
    rw [AddEntries]
    have hdistE2 : List.Pairwise (fun a b : DN => a.Equal b = false)
        (e.dn :: es.map Entry.dn) := by simpa using hdistE
    have hdc := List.pairwise_cons.1 hdistE2
    have hrootanc : t.entry.dn.IsAncestor e.dn = true := by
      rw [hroot]; rfl
    obtain ⟨t2, ht2⟩ := DITNode.insert_ok_of_fresh hinv hrootanc
      (hfresh e (.head _))
    rw [ht2]
    have hperm := DITNode.insert_allDNs_perm ht2
    refine AddEntries_ok_of_fresh (hinv.insert hrootanc ht2) ?_ ?_ ?_ hdc.2
    · rw [DITNode.insert_entry_eq ht2, hroot]
    · rw [List.Perm.pairwise_iff (fun hxy => by rwa [DN.Equal_comm]) hperm]
      refine List.Pairwise.cons ?_ hdistT
      intro d hd
      rw [DN.Equal_comm]
      exact hfresh e (.head _) d hd
    · intro e2 he2 d hd
      rcases (hperm.mem_iff).1 hd with hd2
      rcases List.mem_cons.1 hd2 with rfl | hd3
      · exact hdc.1 e2.dn (List.mem_map_of_mem _ he2)
      · exact hfresh e2 (.tail _ he2) d hd3

/-- On success the node DNs are the inserted DNs plus the initial ones. -/
theorem AddEntries_ok_allDNs_perm : ∀ {es : List Entry} {t : DITNode},
    (AddEntries t es).2 = none →
    (AddEntries t es).1.allDNs.Perm (es.map Entry.dn ++ t.allDNs)
  | [], t, _ => by rw [AddEntries]; simp
  | e :: es, t, h => by
    rw [AddEntries] at h ⊢
    cases hi : t.insert e with
    | error err => rw [hi] at h; simp at h
    | ok t2 =>
      rw [hi] at h
      have ih := AddEntries_ok_allDNs_perm h
      have hperm := DITNode.insert_allDNs_perm hi
      refine ih.trans ?_
      refine (List.Perm.append_left _ hperm).trans ?_
      simpa using List.perm_middle

/-- C7: when pre holds pairwise distinct non-empty DNs and the DN of e
duplicates the root DN or the DN of an entry of pre, the batch insert of
pre ++ e :: post stops at e with the duplicate-DN error: the tree is
exactly the tree after inserting pre (so pre stays inserted and nothing at
or after e is inserted). -/
theorem C7_addentries_first_duplicate (pre : List Entry) (e : Entry)
    (post : List Entry)
    (hne : ∀ p ∈ pre, p.dn.IsEmpty = false)
    (hdist : (pre.map Entry.dn).Pairwise fun a b => a.Equal b = false)
    (hdup : e.dn.IsEmpty = true ∨ ∃ p ∈ pre, p.dn.Equal e.dn = true) :
    AddEntries NewDB (pre ++ e :: post) =
      ((AddEntries NewDB pre).1, some (.duplicateDN e.dn)) ∧
    (AddEntries NewDB pre).2 = none ∧
    (∀ p ∈ pre, ∃ n ∈ (AddEntries NewDB pre).1.allNodes,
       n.entry.dn.Equal p.dn = true) ∧
    (∀ n ∈ (AddEntries NewDB pre).1.allNodes,
       n.entry.dn.IsEmpty = true ∨
       ∃ p ∈ pre, n.entry.dn.Equal p.dn = true) := by
  have hfresh0 : ∀ p ∈ pre, ∀ d ∈ NewDB.allDNs, d.Equal p.dn = false := by
    intro p hp d hd
    have : d = [] := by
      simpa [NewDB, DITNode.allDNs_node, DITNode.allDNsList,
        DITNode.allNodesList_nil] using hd
    cases this
    exact DN.Equal_nil_of_not_empty (hne p hp)
  have hok : (AddEntries NewDB pre).2 = none :=
    AddEntries_ok_of_fresh DITInv_NewDB NewDB_root_dn NewDB_allDNs_pairwise
      hfresh0 hdist
  have hpair : AddEntries NewDB pre = ((AddEntries NewDB pre).1, none) := by
    rw [← hok]
  obtain ⟨hinv, hroot, hdistT⟩ :=
    AddEntries_ok_props hpair DITInv_NewDB NewDB_root_dn NewDB_allDNs_pairwise
  have hperm := AddEntries_ok_allDNs_perm hok
  have hrootanc : (AddEntries NewDB pre).1.entry.dn.IsAncestor e.dn = true := by
    rw [hroot]; rfl
  have hdupT : ∃ d ∈ (AddEntries NewDB pre).1.allDNs, d.Equal e.dn = true := by
    rcases hdup with hdup | ⟨p, hp, hpd⟩
    · refine ⟨(AddEntries NewDB pre).1.entry.dn,
        DITNode.rootDN_mem_allDNs _, ?_⟩
      rw [hroot]
      cases he : e.dn with
      | nil => rfl
      | cons a as_ => rw [he] at hdup; simp [DN.IsEmpty] at hdup
    · refine ⟨p.dn, ?_, hpd⟩
      refine hperm.mem_iff.2 ?_
      exact List.mem_append.2 (.inl (List.mem_map_of_mem _ hp))
  have herr : (AddEntries NewDB pre).1.insert e =
      .error (.duplicateDN e.dn) :=
    DITNode.insert_error_of_dup hinv hrootanc hdupT
  refine ⟨?_, hok, ?_, ?_⟩
  · rw [AddEntries_append hok, AddEntries, herr]
  · intro p hp
    have : p.dn ∈ (AddEntries NewDB pre).1.allDNs :=
      hperm.mem_iff.2 (List.mem_append.2 (.inl (List.mem_map_of_mem _ hp)))
    obtain ⟨n, hn, hnd⟩ := List.mem_map.1 this
    exact ⟨n, hn, by rw [hnd]; exact DN.Equal_refl _⟩
  · intro n hn
    have : n.entry.dn ∈ (AddEntries NewDB pre).1.allDNs :=
      List.mem_map_of_mem _ hn
    rcases List.mem_append.1 (hperm.mem_iff.1 this) with h | h
    · obtain ⟨p, hp, hpd⟩ := List.mem_map.1 h
      exact .inr ⟨p, hp, by rw [hpd]; exact DN.Equal_refl _⟩
    · have : n.entry.dn = [] := by
        simpa [NewDB, DITNode.allDNs_node, DITNode.allDNsList,
          DITNode.allNodesList_nil] using h
      rw [this]
      exact .inl rfl

/-- Witness for C7: inserting dc=com twice with a trailing entry stops at
the duplicate and keeps the first insertion. -/
theorem C7_addentries_first_duplicate_witness :
    AddEntries NewDB [entDC, entDC, entOU] =
      ((AddEntries NewDB [entDC]).1, some (.duplicateDN entDC.dn)) ∧
    (AddEntries NewDB [entDC]).2 = none ∧
    (∀ p ∈ [entDC], ∃ n ∈ (AddEntries NewDB [entDC]).1.allNodes,
       n.entry.dn.Equal p.dn = true) ∧
    (∀ n ∈ (AddEntries NewDB [entDC]).1.allNodes,
       n.entry.dn.IsEmpty = true ∨
       ∃ p ∈ [entDC], n.entry.dn.Equal p.dn = true) := by
  refine C7_addentries_first_duplicate [entDC] entDC [entOU] ?_ ?_ ?_
  · decide
  · decide
  · decide

/-- Witness for C3 at a concrete tree: the batch insert of dc=com and
ou=people,dc=com succeeds, and Find locates the ou=people,dc=com node. -/
theorem C3_find_exact_witness :
    AddEntries NewDB [entDC, entOU] =
      ((AddEntries NewDB [entDC, entOU]).1, none) ∧
    (AddEntries NewDB [entDC, entOU]).1.Find entOU.dn =
      some (.node entOU []) := by
  have h : AddEntries NewDB [entDC, entOU] =
      ((AddEntries NewDB [entDC, entOU]).1, none) := by rfl
  refine ⟨h, ?_⟩
  refine (C3_find_exact _ _ h entOU.dn).1 (.node entOU []) ?_ ?_
  · decide
  · decide

/-! ### Order independence of the tree shape (C1) -/

theorem DN.IsStrictAncestor_irrefl (x : DN) : x.IsStrictAncestor x = false := by
  simp [DN.IsStrictAncestor, DN.Equal_refl]

theorem DN.Equal_of_anc_len : ∀ {a b : DN}, a.IsAncestor b = true →
    a.length = b.length → a.Equal b = true
  | [], [], _, _ => rfl
  | _ :: _, _ :: _, h, hl => by
    simp [DN.IsAncestor] at h
    simp at hl
    simp [DN.Equal, h.1, DN.Equal_of_anc_len h.2 hl]

theorem DN.strict_length {a b : DN} (h : a.IsStrictAncestor b = true) :
    a.length < b.length := by
  simp [DN.IsStrictAncestor] at h
  have hle := DN.IsAncestor_length_le h.1
  rcases Nat.lt_or_ge a.length b.length with hlt | hge
  · exact hlt
  · have hl : a.length = b.length := Nat.le_antisymm hle hge
    rw [DN.Equal_of_anc_len h.1 hl] at h
    simp at h

theorem DN.IsStrictAncestor_congr {a a2 b b2 : DN} (h1 : a.Equal a2 = true)
    (h2 : b.Equal b2 = true) :
    a.IsStrictAncestor b = a2.IsStrictAncestor b2 := by
  simp [DN.IsStrictAncestor, DN.IsAncestor_congr h1 h2, DN.Equal_congr h1 h2]

theorem DN.strict_anc {a b : DN} (h : a.IsStrictAncestor b = true) :
    a.IsAncestor b = true := by
  simp [DN.IsStrictAncestor] at h
  exact h.1

theorem DN.strict_ne {a b : DN} (h : a.IsStrictAncestor b = true) :
    a.Equal b = false := by
  simp [DN.IsStrictAncestor] at h
  exact h.2

theorem DN.strict_of {a b : DN} (h1 : a.IsAncestor b = true)
    (h2 : a.Equal b = false) : a.IsStrictAncestor b = true := by
  simp [DN.IsStrictAncestor, h1, h2]

/-- Under the invariant, a parent node DN is strictly above each child
node DN. -/
theorem DITNode.strict_parent_child {t n c : DITNode} (hinv : DITInv t)
    (hn : n ∈ t.allNodes) (hc : c ∈ n.childrenList) :
    n.entry.dn.IsStrictAncestor c.entry.dn = true := by
  have hninv := hinv.of_mem n hn
  cases n with
  | node e cs =>
    obtain ⟨hanc, _, _⟩ := hninv.inv_node
    simp only [DITNode.childrenList] at hc
    have h := hanc c hc
    show e.dn.IsStrictAncestor c.entry.dn = true
    exact DN.strict_of h.1 h.2

/-- Saturation: for a parent-child pair of the tree no node DN lies
strictly between the two DNs. -/
theorem DITInv.saturation : ∀ {t : DITNode}, DITInv t →
    ∀ n ∈ t.allNodes, ∀ c ∈ n.childrenList, ∀ z ∈ t.allDNs,
      ¬(n.entry.dn.IsStrictAncestor z = true ∧
        z.IsStrictAncestor c.entry.dn = true) := by
  intro t
  induction t using DITNode.inductStrong with
  | h r cs ih =>
    intro hinv n hn c hc z hz hbad
    obtain ⟨hanc, hsib, hrec⟩ := hinv.inv_node
    rw [DITNode.allDNs_node] at hz
    rw [DITNode.allNodes_node] at hn
    obtain ⟨hbad1, hbad2⟩ := hbad
    rcases List.mem_cons.1 hn with rfl | hn
    · -- the parent is the root; c is a direct child of the root
      simp only [DITNode.childrenList] at hc
      have hbad1r : r.dn.IsStrictAncestor z = true := hbad1
      rcases List.mem_cons.1 hz with rfl | hz
      · rw [DN.IsStrictAncestor_irrefl] at hbad1r
        cases hbad1r
      · obtain ⟨cq, hcq, hzq⟩ := DITNode.mem_allDNsList.1 hz
        obtain ⟨nq, hnq, rfl⟩ := List.mem_map.1 hzq
        have hcqz : cq.entry.dn.IsAncestor nq.entry.dn = true :=
          (hrec cq hcq).root_anc nq hnq
        by_cases hceq : cq = c
        · have h1 := DN.IsAncestor_length_le hcqz
          have h2 := DN.strict_length hbad2
          rw [hceq] at h1
          omega
        · have hs := (List.Pairwise.forall
            (fun a b h => ⟨h.2, h.1⟩) hsib) hcq hc hceq
          have h3 : cq.entry.dn.IsAncestor c.entry.dn = true :=
            DN.IsAncestor_trans hcqz (DN.strict_anc hbad2)
          rw [hs.1] at h3
          cases h3
    · -- the parent is inside one of the subtrees
      obtain ⟨c0, hc0, hnc0⟩ := DITNode.mem_allNodesList.1 hn
      have hc0n : c0.entry.dn.IsAncestor n.entry.dn = true :=
        (hrec c0 hc0).root_anc n hnc0
      rcases List.mem_cons.1 hz with rfl | hz
      · -- z is the root DN, which is above n: impossible
        have h2 : r.dn.IsAncestor n.entry.dn = true :=
          DN.IsAncestor_trans (hanc c0 hc0).1 hc0n
        have h3 := DN.IsAncestor_length_le h2
        have h4 := DN.strict_length hbad1
        omega
      · obtain ⟨cq, hcq, hzq⟩ := DITNode.mem_allDNsList.1 hz
        have hc0z : c0.entry.dn.IsAncestor z = true :=
          DN.IsAncestor_trans hc0n (DN.strict_anc hbad1)
        obtain ⟨nq, hnq, rfl⟩ := List.mem_map.1 hzq
        have hcqz : cq.entry.dn.IsAncestor nq.entry.dn = true :=
          (hrec cq hcq).root_anc nq hnq
        by_cases hceq : cq = c0
        · subst hceq
          exact ih cq hcq (hrec cq hcq) n hnc0 c hc nq.entry.dn
            (List.mem_map_of_mem _ hnq) ⟨hbad1, hbad2⟩
        · have hs := (List.Pairwise.forall
            (fun a b h => ⟨h.2, h.1⟩) hsib) hcq hc0 hceq
          rcases DN.IsAncestor_comparable hcqz hc0z with h | h
          · rw [hs.1] at h; cases h
          · rw [hs.2] at h; cases h

/-- Every node other than the root is the child of some node. -/
theorem DITNode.parent_exists : ∀ {t m : DITNode}, m ∈ t.allNodes →
    m = t ∨ ∃ n ∈ t.allNodes, m ∈ n.childrenList := by
  intro t
  induction t using DITNode.inductStrong with
  | h e cs ih =>
    intro m hm
    rw [DITNode.allNodes_node] at hm
    rcases List.mem_cons.1 hm with rfl | hm
    · exact .inl rfl
    · obtain ⟨c, hc, hmc⟩ := DITNode.mem_allNodesList.1 hm
      rcases ih c hc hmc with rfl | ⟨n, hn, hmn⟩
      · refine .inr ⟨.node e cs, DITNode.self_mem_allNodes _, ?_⟩
        simpa [DITNode.childrenList] using hc
      · exact .inr ⟨n, by
          rw [DITNode.allNodes_node]
          exact .tail _ (DITNode.mem_allNodesList.2 ⟨c, hc, hn⟩), hmn⟩

theorem isParentDN_iff {t : DITNode} {x y : DN} :
    isParentDN t x y = true ↔
    ∃ n ∈ t.allNodes, n.entry.dn.Equal x = true ∧
      ∃ c ∈ n.childrenList, c.entry.dn.Equal y = true := by
  simp [isParentDN, List.any_eq_true, Bool.and_eq_true]

theorem isParentDN_of_child {e : Entry} {cs : List DITNode} {c : DITNode}
    {x y : DN} (hc : c ∈ cs) (h : isParentDN c x y = true) :
    isParentDN (.node e cs) x y = true := by
  obtain ⟨n, hn, hnx, d, hd, hdy⟩ := isParentDN_iff.1 h
  refine isParentDN_iff.2 ⟨n, ?_, hnx, d, hd, hdy⟩
  rw [DITNode.allNodes_node]
  exact .tail _ (DITNode.mem_allNodesList.2 ⟨c, hc, hn⟩)

/-- In an invariant tree the parent relation implies the order-free
characterization. -/
theorem isParentDN_imp_char {t : DITNode} (hinv : DITInv t) {x y : DN}
    (h : isParentDN t x y = true) : parentCharT t x y := by
  obtain ⟨n, hn, hnx, c, hc, hcy⟩ := isParentDN_iff.1 h
  have hcn : c ∈ t.allNodes := DITNode.child_mem_allNodes hn hc
  have hstrict := DITNode.strict_parent_child hinv hn hc
  refine ⟨⟨n, hn, hnx⟩, ⟨c, hcn, hcy⟩, ?_, ?_, ?_⟩
  · by_contra hq
    simp only [Bool.not_eq_false] at hq
    have h1 := DN.IsAncestor_length_le (hinv.root_anc n hn)
    have h2 := DN.strict_length hstrict
    have h3 := DN.Equal_length hq
    have h4 := DN.Equal_length hcy
    omega
  · rwa [DN.IsStrictAncestor_congr hnx hcy] at hstrict
  · intro z hz hbad
    refine hinv.saturation n hn c hc z hz ?_
    rw [DN.IsStrictAncestor_congr hnx (DN.Equal_refl z),
      DN.IsStrictAncestor_congr (DN.Equal_refl z) hcy]
    exact hbad

/-- In an invariant tree the order-free characterization implies the
parent relation. -/
theorem char_imp_isParentDN : ∀ {t : DITNode}, DITInv t → ∀ {x y : DN},
    parentCharT t x y → isParentDN t x y = true := by
  intro t
  induction t using DITNode.inductStrong with
  | h r cs ih =>
    intro hinv x y hchar
    obtain ⟨⟨nx, hnx, hnxe⟩, ⟨my, hmy, hmye⟩, hrooty, hxy, hmid⟩ := hchar
    obtain ⟨hanc, hsib, hrec⟩ := hinv.inv_node
    have hrooty2 : r.dn.Equal y = false := hrooty
    rw [DITNode.allNodes_node] at hmy
    rcases List.mem_cons.1 hmy with rfl | hmy
    · have hmye2 : r.dn.Equal y = true := hmye
      rw [hmye2] at hrooty2
      cases hrooty2
    obtain ⟨c, hc, hmyc⟩ := DITNode.mem_allNodesList.1 hmy
    have hcy' : c.entry.dn.IsAncestor y = true := by
      have h1 := (hrec c hc).root_anc my hmyc
      rwa [DN.IsAncestor_congr (DN.Equal_refl _) hmye] at h1
    by_cases hcy : c.entry.dn.Equal y = true
    · -- y is the DN of a direct child of the root: the parent is the root
      have hxr : r.dn.Equal x = true := by
        rw [DITNode.allNodes_node] at hnx
        rcases List.mem_cons.1 hnx with rfl | hnx
        · exact hnxe
        · exfalso
          obtain ⟨c2, hc2, hnxc2⟩ := DITNode.mem_allNodesList.1 hnx
          have hc2x : c2.entry.dn.IsAncestor x = true := by
            have h1 := (hrec c2 hc2).root_anc nx hnxc2
            rwa [DN.IsAncestor_congr (DN.Equal_refl _) hnxe] at h1
          have hc2y : c2.entry.dn.IsAncestor y = true :=
            DN.IsAncestor_trans hc2x (DN.strict_anc hxy)
          by_cases hceq : c2 = c
          · subst hceq
            have h1 := DN.IsAncestor_length_le hc2x
            have h2 := DN.strict_length hxy
            have h3 := DN.Equal_length hnxe
            have h4 := DN.Equal_length hcy
            omega
          · have hs := (List.Pairwise.forall
              (fun a b h => ⟨h.2, h.1⟩) hsib) hc2 hc hceq
            rcases DN.IsAncestor_comparable hc2y hcy' with h | h
            · rw [hs.1] at h; cases h
            · rw [hs.2] at h; cases h
      refine isParentDN_iff.2 ⟨.node r cs, DITNode.self_mem_allNodes _,
        hxr, c, ?_, hcy⟩
      simpa [DITNode.childrenList] using hc
    · -- y lies deeper: recurse into the child subtree holding it
      simp only [Bool.not_eq_true] at hcy
      have hcsty : c.entry.dn.IsStrictAncestor y = true :=
        DN.strict_of hcy' hcy
      have hnxc : nx ∈ c.allNodes := by
        rw [DITNode.allNodes_node] at hnx
        rcases List.mem_cons.1 hnx with rfl | hnx
        · exfalso
          have hzc : c.entry.dn ∈ (DITNode.node r cs).allDNs := by
            rw [DITNode.allDNs_node]
            exact .tail _ (DITNode.mem_allDNsList.2
              ⟨c, hc, DITNode.rootDN_mem_allDNs c⟩)
          refine hmid c.entry.dn hzc ⟨?_, hcsty⟩
          have hrstrict : r.dn.IsStrictAncestor c.entry.dn = true :=
            DN.strict_of (hanc c hc).1 (hanc c hc).2
          have heq : r.dn.Equal x = true := hnxe
          rwa [DN.IsStrictAncestor_congr heq (DN.Equal_refl _)] at hrstrict
        · obtain ⟨c2, hc2, hnxc2⟩ := DITNode.mem_allNodesList.1 hnx
          have hc2x : c2.entry.dn.IsAncestor x = true := by
            have h1 := (hrec c2 hc2).root_anc nx hnxc2
            rwa [DN.IsAncestor_congr (DN.Equal_refl _) hnxe] at h1
          have hc2y : c2.entry.dn.IsAncestor y = true :=
            DN.IsAncestor_trans hc2x (DN.strict_anc hxy)
          by_cases hceq : c2 = c
          · subst hceq
            exact hnxc2
          · exfalso
            have hs := (List.Pairwise.forall
              (fun a b h => ⟨h.2, h.1⟩) hsib) hc2 hc hceq
            rcases DN.IsAncestor_comparable hc2y hcy' with h | h
            · rw [hs.1] at h; cases h
            · rw [hs.2] at h; cases h
      have hsub : parentCharT c x y := by
        refine ⟨⟨nx, hnxc, hnxe⟩, ⟨my, hmyc, hmye⟩, hcy, hxy, ?_⟩
        intro z hz
        exact hmid z (DITNode.mem_allDNs_of_child hc hz)
      exact isParentDN_of_child hc (ih c hc (hrec c hc) hsub)

/-- The characterization is a function of the node DNs (as a set) and the
root DN only. -/
theorem parentCharT_congr {t1 t2 : DITNode} {x y : DN}
    (hAll : t1.allDNs.Perm t2.allDNs) (hroot : t1.entry.dn = t2.entry.dn) :
    parentCharT t1 x y ↔ parentCharT t2 x y := by
  have hnode : ∀ (t : DITNode) (d : DN),
      (∃ n ∈ t.allNodes, n.entry.dn.Equal d = true) ↔
      (∃ z ∈ t.allDNs, z.Equal d = true) := by
    intro t d
    constructor
    · rintro ⟨n, hn, he⟩
      exact ⟨n.entry.dn, List.mem_map_of_mem _ hn, he⟩
    · rintro ⟨z, hz, he⟩
      obtain ⟨n, hn, rfl⟩ := List.mem_map.1 hz
      exact ⟨n, hn, he⟩
  unfold parentCharT
  rw [hnode t1 x, hnode t2 x, hnode t1 y, hnode t2 y, hroot]
  constructor
  · rintro ⟨⟨z1, hz1, he1⟩, ⟨z2, hz2, he2⟩, h3, h4, h5⟩
    exact ⟨⟨z1, hAll.mem_iff.1 hz1, he1⟩, ⟨z2, hAll.mem_iff.1 hz2, he2⟩,
      h3, h4, fun z hz => h5 z (hAll.mem_iff.2 hz)⟩
  · rintro ⟨⟨z1, hz1, he1⟩, ⟨z2, hz2, he2⟩, h3, h4, h5⟩
    exact ⟨⟨z1, hAll.mem_iff.2 hz1, he1⟩, ⟨z2, hAll.mem_iff.2 hz2, he2⟩,
      h3, h4, fun z hz => h5 z (hAll.mem_iff.1 hz)⟩

/-- C1: inserting a list of entries with pairwise distinct non-empty DNs
into a fresh root in any two orders yields trees with the same parent/child
structure: node X is the parent of node Y in one tree iff it is in the
other. -/
theorem C1_insert_order_independent (es1 es2 : List Entry)
    (hperm : es1.Perm es2)
    (hdist : (es1.map Entry.dn).Pairwise fun a b => a.Equal b = false)
    (hne : ∀ e ∈ es1, e.dn.IsEmpty = false)
    (t1 t2 : DITNode)
    (h1 : AddEntries NewDB es1 = (t1, none))
    (h2 : AddEntries NewDB es2 = (t2, none))
    (x y : DN) :
    isParentDN t1 x y = isParentDN t2 x y := by
  obtain ⟨hinv1, hroot1, _⟩ :=
    AddEntries_ok_props h1 DITInv_NewDB NewDB_root_dn NewDB_allDNs_pairwise
  obtain ⟨hinv2, hroot2, _⟩ :=
    AddEntries_ok_props h2 DITInv_NewDB NewDB_root_dn NewDB_allDNs_pairwise
  have hp1 : t1.allDNs.Perm (es1.map Entry.dn ++ NewDB.allDNs) := by
    have := @AddEntries_ok_allDNs_perm es1 NewDB
      (by rw [h1])
    rwa [h1] at this
  have hp2 : t2.allDNs.Perm (es2.map Entry.dn ++ NewDB.allDNs) := by
    have := @AddEntries_ok_allDNs_perm es2 NewDB
      (by rw [h2])
    rwa [h2] at this
  have hAll : t1.allDNs.Perm t2.allDNs :=
    hp1.trans (((hperm.map Entry.dn).append
      (List.Perm.refl NewDB.allDNs)).trans hp2.symm)
  have hroot : t1.entry.dn = t2.entry.dn := by rw [hroot1, hroot2]
  rw [Bool.eq_iff_iff]
  constructor
  · intro h
    exact char_imp_isParentDN hinv2
      ((parentCharT_congr hAll hroot).1 (isParentDN_imp_char hinv1 h))
  · intro h
    exact char_imp_isParentDN hinv1
      ((parentCharT_congr hAll hroot).2 (isParentDN_imp_char hinv2 h))

/-- Witness for C1: three entries inserted leaf-first and root-first give
the same parent relation, checked at ou=people,dc=com over
uid=alice,ou=people,dc=com. -/
theorem C1_insert_order_independent_witness :
    isParentDN (AddEntries NewDB [entUID, entOU, entDC]).1
        entOU.dn entUID.dn =
      isParentDN (AddEntries NewDB [entDC, entOU, entUID]).1
        entOU.dn entUID.dn :=
  C1_insert_order_independent [entUID, entOU, entDC] [entDC, entOU, entUID]
    (by decide) (by decide) (by decide) _ _ (by rfl) (by rfl)
    entOU.dn entUID.dn

/-! ### String lemmas for trimming, splitting and joining -/

theorem dropWhile_length_le {p : Char → Bool} : ∀ l : Str,
    (l.dropWhile p).length ≤ l.length
  | [] => Nat.le_refl _
  | c :: cs => by
    rw [List.dropWhile_cons]
    by_cases h : p c = true
    · simp only [h, if_true]
      exact Nat.le_trans (dropWhile_length_le cs) (Nat.le_succ _)
    · simp only [Bool.not_eq_true] at h
      simp [h]

theorem dropWhile_head_false {p : Char → Bool} : ∀ {l : Str} {c : Char}
    {r : Str}, l.dropWhile p = c :: r → p c = false
  | [], c, r => by intro h; cases h
  | a :: as_, c, r => by
    rw [List.dropWhile_cons]
    by_cases h : p a = true
    · simp only [h, if_true]
      exact dropWhile_head_false
    · simp only [Bool.not_eq_true] at h
      simp only [h, Bool.false_eq_true, if_false, List.cons.injEq]
      rintro ⟨rfl, rfl⟩
      exact h

theorem dropWhile_cons_false {p : Char → Bool} {c : Char} {l : Str}
    (h : p c = false) : (c :: l).dropWhile p = c :: l := by
  simp [List.dropWhile_cons, h]

theorem dropWhile_idem {p : Char → Bool} {l : Str} :
    (l.dropWhile p).dropWhile p = l.dropWhile p := by
  cases h : l.dropWhile p with
  | nil => rfl
  | cons c r => exact dropWhile_cons_false (dropWhile_head_false h)

theorem dropWhile_fix_head {p : Char → Bool} {c : Char} {l : Str}
    (h : (c :: l).dropWhile p = c :: l) : p c = false := by
  by_contra hq
  simp only [Bool.not_eq_false] at hq
  rw [List.dropWhile_cons, if_pos hq] at h
  have h1 := dropWhile_length_le (p := p) l
  rw [h] at h1
  simp at h1

theorem all_dropWhile_iff {p : Char → Bool} : ∀ {l : Str},
    (∀ c ∈ l.dropWhile p, p c = true) ↔ ∀ c ∈ l, p c = true
  | [] => by simp
  | a :: as_ => by
    rw [List.dropWhile_cons]
    by_cases h : p a = true
    · simp only [h, if_true]
      rw [all_dropWhile_iff]
      constructor
      · intro hall c hc
        rcases List.mem_cons.1 hc with rfl | hc
        · exact h
        · exact hall c hc
      · intro hall c hc
        exact hall c (.tail _ hc)
    · simp only [Bool.not_eq_true] at h
      simp [h]

theorem trimLeft_head {s : Str} {c : Char} {r : Str}
    (h : trimLeft s = c :: r) : c.isWhitespace = false :=
  dropWhile_head_false h

theorem trimLeft_cons_of {c : Char} {l : Str} (h : c.isWhitespace = false) :
    trimLeft (c :: l) = c :: l :=
  dropWhile_cons_false h

theorem trimLeft_idem {s : Str} : trimLeft (trimLeft s) = trimLeft s :=
  dropWhile_idem

theorem trimRight_idem {s : Str} : trimRight (trimRight s) = trimRight s := by
  unfold trimRight
  rw [List.reverse_reverse, dropWhile_idem]

theorem trimRight_prefixOf (s : Str) : trimRight s <+: s := by
  unfold trimRight
  rw [← List.reverse_reverse s]
  exact List.reverse_prefix.2 (by
    rw [List.reverse_reverse]
    exact List.dropWhile_suffix _)

theorem trimLeft_trimSpace (s : Str) : trimLeft (trimSpace s) = trimSpace s := by
  unfold trimSpace
  cases h : trimRight (trimLeft s) with
  | nil => rfl
  | cons c r =>
    obtain ⟨t, ht⟩ := trimRight_prefixOf (trimLeft s)
    rw [h] at ht
    have hls : trimLeft s = c :: (r ++ t) := by
      rw [← ht]
      rfl
    exact trimLeft_cons_of (trimLeft_head hls)

theorem trimRight_trimSpace (s : Str) :
    trimRight (trimSpace s) = trimSpace s := trimRight_idem

theorem trimSpace_idem {s : Str} : trimSpace (trimSpace s) = trimSpace s := by
  show trimRight (trimLeft (trimSpace s)) = trimSpace s
  rw [trimLeft_trimSpace, trimRight_trimSpace]

theorem trimSpace_eq_nil_iff {s : Str} :
    trimSpace s = [] ↔ ∀ c ∈ s, c.isWhitespace = true := by
  show trimRight (trimLeft s) = [] ↔ _
  unfold trimRight
  rw [List.reverse_eq_nil_iff, List.dropWhile_eq_nil_iff]
  constructor
  · intro h c hc
    exact all_dropWhile_iff.1 (fun d hd => h d (List.mem_reverse.2 hd)) c hc
  · intro h c hc
    exact all_dropWhile_iff.2 h c (List.mem_reverse.1 hc)

theorem mem_trimSpace {c : Char} {s : Str} (h : c ∈ trimSpace s) : c ∈ s := by
  have h1 : c ∈ trimLeft s := (trimRight_prefixOf (trimLeft s)).subset h
  exact (List.dropWhile_suffix _).subset h1

theorem dropWhile_append_not {p : Char → Bool} {c : Char} {r : Str}
    (h : p c = false) : ∀ {l : Str},
    (l ++ c :: r).dropWhile p = l.dropWhile p ++ c :: r
  | [] => by simp [dropWhile_cons_false h]
  | a :: as_ => by
    rw [List.cons_append, List.dropWhile_cons, List.dropWhile_cons]
    by_cases ha : p a = true
    · simp only [ha, if_true]
      exact dropWhile_append_not h
    · simp only [Bool.not_eq_true] at ha
      simp [ha]

theorem trimRight_fix_reverse {b : Str} (h : trimRight b = b) :
    (b.reverse).dropWhile Char.isWhitespace = b.reverse := by
  have := congrArg List.reverse h
  unfold trimRight at this
  rwa [List.reverse_reverse] at this

theorem trimRight_append_last {a b : Str} (h : trimRight b = b)
    (hb : b ≠ []) : trimRight (a ++ b) = a ++ b := by
  unfold trimRight
  rw [List.reverse_append]
  cases hrb : b.reverse with
  | nil => exact absurd (List.reverse_eq_nil_iff.1 hrb) hb
  | cons c q =>
    have hfix := trimRight_fix_reverse h
    rw [hrb] at hfix
    have hc : c.isWhitespace = false := dropWhile_fix_head hfix
    rw [List.cons_append, dropWhile_cons_false hc, ← List.cons_append,
      ← hrb, ← List.reverse_append, List.reverse_reverse]

theorem trimRight_single {c : Char} (h : c.isWhitespace = false) :
    trimRight [c] = [c] := by
  unfold trimRight
  simp [dropWhile_cons_false h]

theorem splitComma_ne_nil : ∀ {s : Str}, splitComma s ≠ []
  | [] => by rw [splitComma]; simp
  | c :: cs => by
    rw [splitComma]
    by_cases h : c = ','
    · simp [h]
    · simp only [h, if_false]
      cases hs : splitComma cs with
      | nil => simp
      | cons f fs => simp

theorem splitComma_no_comma : ∀ {s : Str}, (',' ∉ s) → splitComma s = [s]
  | [], _ => by rw [splitComma]
  | c :: cs, h => by
    rw [splitComma]
    have hc : ¬(c = ',') := fun hq => h (hq ▸ .head _)
    simp only [hc, if_false]
    rw [splitComma_no_comma (fun hq => h (.tail _ hq))]

theorem splitComma_append {J : Str} : ∀ {x : Str}, (',' ∉ x) →
    splitComma (x ++ ',' :: J) = x :: splitComma J
  | [], _ => by rw [List.nil_append, splitComma]; simp
  | c :: cs, h => by
    have hc : ¬(c = ',') := fun hq => h (hq ▸ .head _)
    rw [List.cons_append, splitComma]
    simp only [hc, if_false]
    rw [splitComma_append (fun hq => h (.tail _ hq))]

theorem mem_splitComma_no_comma : ∀ {s : Str} {f : Str},
    f ∈ splitComma s → ',' ∉ f
  | [], f => by
    rw [splitComma]
    intro hf
    simp at hf
    simp [hf]
  | c :: cs, f => by
    rw [splitComma]
    by_cases hc : c = ','
    · simp only [hc, if_true]
      intro hf
      rcases List.mem_cons.1 hf with rfl | hf
      · simp
      · exact mem_splitComma_no_comma hf
    · simp only [hc, if_false]
      cases hs : splitComma cs with
      | nil => exact absurd hs splitComma_ne_nil
      | cons g gs =>
        intro hf
        rcases List.mem_cons.1 hf with rfl | hf
        · intro hq
          rcases List.mem_cons.1 hq with rfl | hq
          · exact hc rfl
          · exact mem_splitComma_no_comma (s := cs) (hs ▸ .head _) hq
        · exact mem_splitComma_no_comma (s := cs) (hs ▸ .tail _ hf)

theorem takeWhile_append_eq : ∀ {n : Str} {rest : Str}, ('=' ∉ n) →
    ((n ++ '=' :: rest).takeWhile (· ≠ '=')) = n
  | [], rest, _ => by simp
  | c :: cs, rest, h => by
    have hc : ¬(c = '=') := fun hq => h (hq ▸ .head _)
    have hrec := @takeWhile_append_eq cs rest
      (fun hq => h (.tail _ hq))
    simp only [List.cons_append, List.takeWhile_cons]
    simp only [ne_eq, hc, not_false_eq_true, decide_True, if_true,
      List.cons.injEq, true_and]
    simpa using hrec

/-- Either the string has an '=' and splits as name, '=', value, or it has
none and takeWhile consumes everything. -/
theorem cut_eq_or : ∀ s : Str,
    (∃ val, ('=' ∈ s) ∧ s = s.takeWhile (· ≠ '=') ++ '=' :: val ∧
      s.drop ((s.takeWhile (· ≠ '=')).length) = '=' :: val) ∨
    (('=' ∉ s) ∧ s.drop ((s.takeWhile (· ≠ '=')).length) = [])
  | [] => .inr (by simp)
  | c :: cs => by
    by_cases hc : c = '='
    · subst hc
      refine .inl ⟨cs, .head _, ?_, ?_⟩ <;> simp [List.takeWhile_cons]
    · rcases cut_eq_or cs with ⟨val, hmem, heq, hdrop⟩ | ⟨hmem, hdrop⟩
      · refine .inl ⟨val, .tail _ hmem, ?_, ?_⟩
        · simp only [List.takeWhile_cons]
          simp only [ne_eq, hc, not_false_eq_true, decide_True, if_true,
            List.cons_append, List.cons.injEq, true_and]
          exact heq
        · simp only [List.takeWhile_cons]
          simp only [ne_eq, hc, not_false_eq_true, decide_True, if_true]
          simpa using hdrop
      · refine .inr ⟨?_, ?_⟩
        · intro hq
          rcases List.mem_cons.1 hq with hq2 | hq2
          · exact hc hq2.symm
          · exact hmem hq2
        · simp only [List.takeWhile_cons]
          simp only [ne_eq, hc, not_false_eq_true, decide_True, if_true]
          simpa using hdrop

/-! ### ParseRDN and NewDN acceptance (C9) -/

theorem ParseRDN_split {n v : Str} (h : '=' ∉ n) :
    ParseRDN (n ++ '=' :: v) =
      (if trimSpace n = [] then .error (.noAttrName (n ++ '=' :: v))
       else .ok ⟨trimSpace n, trimSpace v⟩) := by
  unfold ParseRDN
  simp only [takeWhile_append_eq h, List.drop_left]

theorem trim_ne_nil_of_nonws {n : Str} (h : ∃ c ∈ n, c.isWhitespace = false) :
    ¬(trimSpace n = []) := by
  intro hq
  obtain ⟨c, hc, hw⟩ := h
  rw [trimSpace_eq_nil_iff.1 hq c hc] at hw
  cases hw

theorem trimSpace_trimLeft (s : Str) : trimSpace (trimLeft s) = trimSpace s := by
  show trimRight (trimLeft (trimLeft s)) = trimRight (trimLeft s)
  rw [trimLeft_idem]

/-- C9: ParseRDN accepts components with an empty (or whitespace-only)
value, returning the trimmed name with value ""; it errors only on a
missing '=' (invalid rdn) or a whitespace-only name (no attribute name);
NewDN therefore accepts DN strings with empty-valued RDN components. -/
theorem C9_parserdn_empty_value :
    (∀ n v : Str, ('=' ∉ n) → (∃ c ∈ n, c.isWhitespace = false) →
       ParseRDN (n ++ '=' :: v) = .ok ⟨trimSpace n, trimSpace v⟩) ∧
    (∀ n v : Str, ('=' ∉ n) → (∃ c ∈ n, c.isWhitespace = false) →
       (∀ c ∈ v, c.isWhitespace = true) →
       ParseRDN (n ++ '=' :: v) = .ok ⟨trimSpace n, []⟩) ∧
    (∀ s : Str, ∀ e, ParseRDN s = .error e →
       (('=' ∉ s) ∧ e = .invalidRDN s) ∨
       ((∀ c ∈ s.takeWhile (· ≠ '='), c.isWhitespace = true) ∧
        e = .noAttrName s)) ∧
    (∀ n : Str, ('=' ∉ n) → (',' ∉ n) →
       (∃ c ∈ n, c.isWhitespace = false) →
       NewDN (n ++ ['=']) = .ok [⟨trimSpace n, []⟩]) := by
  have hacc : ∀ n v : Str, ('=' ∉ n) →
      (∃ c ∈ n, c.isWhitespace = false) →
      ParseRDN (n ++ '=' :: v) = .ok ⟨trimSpace n, trimSpace v⟩ := by
    intro n v h hnw
    rw [ParseRDN_split h, if_neg (trim_ne_nil_of_nonws hnw)]
  refine ⟨hacc, ?_, ?_, ?_⟩
  · intro n v h hnw hws
    rw [hacc n v h hnw, trimSpace_eq_nil_iff.2 hws]
  · intro s e herr
    rcases cut_eq_or s with ⟨val, hmem, hs, hdrop⟩ | ⟨hmem, hdrop⟩
    · unfold ParseRDN at herr
      simp only [hdrop] at herr
      by_cases hn : trimSpace (s.takeWhile (· ≠ '=')) = []
      · refine .inr ⟨trimSpace_eq_nil_iff.1 hn, ?_⟩
        rw [if_pos hn] at herr
        simp only [Except.error.injEq] at herr
        exact herr.symm
      · rw [if_neg hn] at herr
        cases herr
    · unfold ParseRDN at herr
      simp only [hdrop] at herr
      simp only [Except.error.injEq] at herr
      exact .inl ⟨hmem, herr.symm⟩
  · intro n heq hcomma hnw
    have hwseq : ('=').isWhitespace = false := by decide
    have h1 : trimLeft (n ++ ['=']) = trimLeft n ++ ['='] :=
      dropWhile_append_not (r := []) hwseq
    have h2 : trimSpace (n ++ ['=']) = trimLeft n ++ ['='] := by
      show trimRight (trimLeft (n ++ ['='])) = _
      rw [h1]
      exact trimRight_append_last (trimRight_single hwseq) (by simp)
    have h3 : trimLeft n ++ ['='] ≠ [] := by simp
    have hsub : ∀ c ∈ trimLeft n, c ∈ n :=
      fun c hc => (List.dropWhile_suffix _).subset hc
    have h4 : splitComma (trimLeft n ++ ['=']) = [trimLeft n ++ ['=']] := by
      refine splitComma_no_comma ?_
      intro hq
      rcases List.mem_append.1 hq with hq | hq
      · exact hcomma (hsub _ hq)
      · simp at hq
    have h5 : ParseRDN (trimLeft n ++ ['=']) =
        .ok ⟨trimSpace n, []⟩ := by
      have := hacc (trimLeft n) [] (fun hq => heq (hsub _ hq))
        (by
          obtain ⟨c, hc, hw⟩ := hnw
          have : ∃ c ∈ n, c.isWhitespace = false := ⟨c, hc, hw⟩
          by_contra hall
          push_neg at hall
          refine trim_ne_nil_of_nonws this ?_
          rw [← trimSpace_trimLeft]
          refine trimSpace_eq_nil_iff.2 ?_
          intro d hd
          rcases hws : d.isWhitespace with _ | _
          · exact absurd (hall d hd) (by simp [hws])
          · rfl)
      rw [trimSpace_trimLeft] at this
      exact this
    unfold NewDN
    rw [h2, if_neg h3, h4]
    show parseRDNs [trimLeft n ++ ['=']] = _
    rw [parseRDNs, h5]
    rfl

/-- Witness for C9: "uid = " parses to name uid with empty value, and
NewDN accepts "uid=". -/
theorem C9_parserdn_empty_value_witness :
    ParseRDN ("uid ".toList ++ '=' :: " ".toList) =
      .ok ⟨trimSpace "uid ".toList, []⟩ ∧
    NewDN ("uid".toList ++ ['=']) = .ok [⟨trimSpace "uid".toList, []⟩] :=
  ⟨C9_parserdn_empty_value.2.1 "uid ".toList " ".toList (by decide)
    (by decide) (by decide),
   C9_parserdn_empty_value.2.2.2 "uid".toList (by decide) (by decide)
    (by decide)⟩

/-! ### The parse/render round trip (C8) -/

theorem joinComma_single (s : Str) : joinComma [s] = s := rfl

theorem joinComma_cons2 (s t : Str) (ss : List Str) :
    joinComma (s :: t :: ss) = s ++ ',' :: joinComma (t :: ss) := rfl

theorem splitComma_joinComma : ∀ {comps : List Str}, comps ≠ [] →
    (∀ c ∈ comps, ',' ∉ c) → splitComma (joinComma comps) = comps
  | [], h, _ => absurd rfl h
  | [x], _, hall => by
    rw [joinComma_single]
    exact splitComma_no_comma (hall x (.head _))
  | x :: y :: rest, _, hall => by
    rw [joinComma_cons2, splitComma_append (hall x (.head _))]
    rw [splitComma_joinComma (by simp) (fun c hc => hall c (.tail _ hc))]

theorem trimRight_joinComma : ∀ {comps : List Str}, comps ≠ [] →
    (∀ c ∈ comps, trimRight c = c ∧ c ≠ []) →
    trimRight (joinComma comps) = joinComma comps ∧ joinComma comps ≠ []
  | [], h, _ => absurd rfl h
  | [x], _, hall => by
    rw [joinComma_single]
    exact ⟨(hall x (.head _)).1, (hall x (.head _)).2⟩
  | x :: y :: rest, _, hall => by
    rw [joinComma_cons2]
    obtain ⟨hJ, hJne⟩ := @trimRight_joinComma (y :: rest) (by simp)
      (fun c hc => hall c (.tail _ hc))
    have h1 : trimRight (',' :: joinComma (y :: rest)) =
        ',' :: joinComma (y :: rest) :=
      trimRight_append_last (a := [',']) hJ hJne
    refine ⟨trimRight_append_last h1 (by simp), by simp⟩

/-- An RDN made of trim-fixed parts reparses from its rendering. -/
theorem ParseRDN_render {r : RDN} (hg : goodRDN r) :
    ParseRDN (RDN.render r) = .ok r := by
  obtain ⟨hln, hrn, hlv, hrv, hne, heq, _, _⟩ := hg
  show ParseRDN (r.name ++ '=' :: r.value) = .ok r
  rw [ParseRDN_split heq]
  have htn : trimSpace r.name = r.name := by
    show trimRight (trimLeft r.name) = r.name
    rw [hln, hrn]
  have htv : trimSpace r.value = r.value := by
    show trimRight (trimLeft r.value) = r.value
    rw [hlv, hrv]
  rw [htn, htv, if_neg hne]

/-- Parsing a component that contains '=' and has a non-trivial name
yields a goodRDN. -/
theorem ParseRDN_good {comp : Str} (hmem : '=' ∈ comp)
    (hname : trimSpace (comp.takeWhile (· ≠ '=')) ≠ [])
    (hcomma : ',' ∉ comp) :
    ∃ r, ParseRDN comp = .ok r ∧ goodRDN r := by
  rcases cut_eq_or comp with ⟨val, _, hseq, hdrop⟩ | ⟨hnm, _⟩
  · have hnoeq : '=' ∉ comp.takeWhile (· ≠ '=') := by
      intro hq
      have := List.mem_takeWhile_imp hq
      simp at this
    refine ⟨⟨trimSpace (comp.takeWhile (· ≠ '=')), trimSpace val⟩, ?_, ?_⟩
    · conv_lhs => rw [hseq]
      rw [ParseRDN_split hnoeq, if_neg hname]
    · have hsubn : ∀ c ∈ trimSpace (comp.takeWhile (· ≠ '=')), c ∈ comp :=
        fun c hc => (List.takeWhile_sublist _).subset (mem_trimSpace hc)
      have hsubv : ∀ c ∈ trimSpace val, c ∈ comp := by
        intro c hc
        rw [hseq]
        exact List.mem_append.2 (.inr (.tail _ (mem_trimSpace hc)))
      refine ⟨trimLeft_trimSpace _, trimRight_trimSpace _,
        trimLeft_trimSpace _, trimRight_trimSpace _, hname, ?_, ?_, ?_⟩
      · intro hq
        exact hnoeq (mem_trimSpace hq)
      · intro hq
        exact hcomma (hsubn _ hq)
      · intro hq
        exact hcomma (hsubv _ hq)
  · exact absurd hmem hnm

theorem parseRDNs_good : ∀ {l : List Str},
    (∀ c ∈ l, ∃ r, ParseRDN c = .ok r ∧ goodRDN r) →
    ∃ dn, parseRDNs l = .ok dn ∧ ∀ r ∈ dn, goodRDN r
  | [], _ => ⟨[], rfl, by simp⟩
  | c :: cs, hall => by
    obtain ⟨r, hr, hg⟩ := hall c (.head _)
    obtain ⟨dn, hdn, hgs⟩ := parseRDNs_good (fun d hd => hall d (.tail _ hd))
    refine ⟨r :: dn, ?_, ?_⟩
    · rw [parseRDNs, hr, hdn]
      rfl
    · intro r2 hr2
      rcases List.mem_cons.1 hr2 with rfl | hr2
      · exact hg
      · exact hgs r2 hr2

theorem parseRDNs_map_render : ∀ {dn : DN}, (∀ r ∈ dn, goodRDN r) →
    parseRDNs (dn.map RDN.render) = .ok dn
  | [], _ => rfl
  | r :: rs, hall => by
    rw [List.map_cons, parseRDNs, ParseRDN_render (hall r (.head _)),
      parseRDNs_map_render (fun q hq => hall q (.tail _ hq))]
    rfl

/-- Rendering a DN of goodRDNs and reparsing returns it exactly. -/
theorem NewDN_render {dn : DN} (hall : ∀ r ∈ dn, goodRDN r) :
    NewDN (DN.render dn) = .ok dn := by
  cases hdn : dn with
  | nil => rfl
  | cons r0 rs =>
    subst hdn
    have hcomps : ∀ c ∈ (r0 :: rs).reverse.map RDN.render,
        (trimRight c = c ∧ c ≠ []) ∧ trimLeft c = c ∧ (',' ∉ c) := by
      intro c hc
      obtain ⟨r, hr, rfl⟩ := List.mem_map.1 hc
      have hg := hall r (List.mem_reverse.1 hr)
      obtain ⟨hln, hrn, hlv, hrv, hne, heqn, hcn, hcv⟩ := hg
      have hrender : RDN.render r = r.name ++ '=' :: r.value := rfl
      refine ⟨⟨?_, ?_⟩, ?_, ?_⟩
      · rw [hrender]
        cases hv : r.value with
        | nil =>
          exact trimRight_append_last (b := ['='])
            (trimRight_single (by decide)) (by simp)
        | cons a as_ =>
          have hsplit : r.name ++ '=' :: a :: as_ =
              (r.name ++ ['=']) ++ (a :: as_) := by simp
          rw [hsplit]
          refine trimRight_append_last ?_ (by simp)
          rw [← hv]
          exact hrv
      · rw [hrender]
        simp
      · rw [hrender]
        cases hn : r.name with
        | nil => exact absurd hn hne
        | cons a as_ =>
          rw [List.cons_append]
          have ha : a.isWhitespace = false := by
            rw [hn] at hln
            exact dropWhile_fix_head hln
          exact trimLeft_cons_of ha
      · rw [hrender]
        intro hq
        rcases List.mem_append.1 hq with hq | hq
        · exact hcn hq
        · rcases List.mem_cons.1 hq with hq | hq
          · cases hq
          · exact hcv hq
    have hne0 : (r0 :: rs).reverse.map RDN.render ≠ [] := by simp
    obtain ⟨hTR, hJne⟩ := trimRight_joinComma hne0
      (fun c hc => (hcomps c hc).1)
    have hTL : trimLeft (joinComma ((r0 :: rs).reverse.map RDN.render)) =
        joinComma ((r0 :: rs).reverse.map RDN.render) := by
      cases hcl : (r0 :: rs).reverse.map RDN.render with
      | nil => exact absurd hcl hne0
      | cons c0 crest =>
        have hc0 : trimLeft c0 = c0 ∧ c0 ≠ [] := by
          have h := hcomps c0 (hcl ▸ .head _)
          exact ⟨h.2.1, h.1.2⟩
        cases hc00 : c0 with
        | nil => exact absurd hc00 hc0.2
        | cons a arest =>
          have ha : a.isWhitespace = false := by
            rw [hc00] at hc0
            exact dropWhile_fix_head hc0.1
          cases crest with
          | nil =>
            rw [joinComma_single]
            exact trimLeft_cons_of ha
          | cons c1 crest2 =>
            rw [joinComma_cons2, List.cons_append]
            exact trimLeft_cons_of ha
    have hTS : trimSpace (joinComma ((r0 :: rs).reverse.map RDN.render)) =
        joinComma ((r0 :: rs).reverse.map RDN.render) := by
      show trimRight (trimLeft _) = _
      rw [hTL, hTR]
    show NewDN (joinComma ((r0 :: rs).reverse.map RDN.render)) = _
    unfold NewDN
    rw [hTS, if_neg hJne,
      splitComma_joinComma hne0 (fun c hc => (hcomps c hc).2.2)]
    have : ((r0 :: rs).reverse.map RDN.render).reverse =
        (r0 :: rs).map RDN.render := by
      rw [← List.map_reverse, List.reverse_reverse]
    rw [this]
    exact parseRDNs_map_render hall

/-- C8: for every well-formed DN string, NewDN succeeds, and rendering and
reparsing yields a component-wise equal DN. -/
theorem C8_newdn_roundtrip (s : Str) (hwf : wellFormedDN s = true) :
    ∃ dn, NewDN s = .ok dn ∧ ∃ dn2, NewDN (DN.render dn) = .ok dn2 ∧
      dn2.Equal dn = true := by
  unfold wellFormedDN at hwf
  rw [Bool.or_eq_true] at hwf
  rcases hwf with hwf | hwf
  · rw [List.isEmpty_iff] at hwf
    have h1 : NewDN s = .ok [] := by
      unfold NewDN
      rw [hwf]
      rfl
    exact ⟨[], h1, [], by rfl, rfl⟩
  · rw [List.all_eq_true] at hwf
    have hne : ¬(trimSpace s = []) := by
      intro hq
      have h0 := splitComma_ne_nil (s := trimSpace s)
      cases hq2 : splitComma (trimSpace s) with
      | nil => exact h0 hq2
      | cons f fs =>
        have := hwf f (hq2 ▸ .head _)
        rw [Bool.and_eq_true] at this
        rw [hq] at hq2
        rw [splitComma] at hq2
        cases hq2
        simp at this
    have hcomps : ∀ c ∈ (splitComma (trimSpace s)).reverse,
        ∃ r, ParseRDN c = .ok r ∧ goodRDN r := by
      intro c hc
      rw [List.mem_reverse] at hc
      have hw := hwf c hc
      rw [Bool.and_eq_true] at hw
      refine ParseRDN_good ?_ ?_ (mem_splitComma_no_comma hc)
      · have := hw.1
        simpa using this
      · have := hw.2
        rw [Bool.not_eq_true'] at this
        intro hq
        rw [hq] at this
        simp at this
    obtain ⟨dn, hdn, hgood⟩ := parseRDNs_good hcomps
    have h1 : NewDN s = .ok dn := by
      unfold NewDN
      rw [if_neg hne]
      exact hdn
    exact ⟨dn, h1, dn, NewDN_render hgood, DN.Equal_refl dn⟩

/-- Witness for C8 at the string "dc=example, dc = com". -/
theorem C8_newdn_roundtrip_witness :
    ∃ dn, NewDN "dc=example, dc = com".toList = .ok dn ∧
      ∃ dn2, NewDN (DN.render dn) = .ok dn2 ∧ dn2.Equal dn = true :=
  C8_newdn_roundtrip "dc=example, dc = com".toList (by decide)

/-! ### Equality filter matching (C5) -/

theorem lookup_mem {attr : Attr} : ∀ {l : List (Str × Attr)} {k : Str},
    l.lookup k = some attr → (k, attr) ∈ l
  | [], k => by intro h; cases h
  | (k2, a2) :: rest, k => by
    rw [List.lookup]
    by_cases hk : k = k2
    · subst hk
      simp only [beq_self_eq_true, Option.some.injEq]
      rintro rfl
      exact .head _
    · have : (k == k2) = false := by
        simp [hk]
      simp only [this]
      intro h
      exact .tail _ (lookup_mem h)

theorem mem_lookup {attr : Attr} : ∀ {l : List (Str × Attr)} {k : Str},
    (l.map Prod.fst).Nodup → (k, attr) ∈ l → l.lookup k = some attr
  | [], k, _, hmem => by cases hmem
  | (k2, a2) :: rest, k, hnd, hmem => by
    rw [List.lookup]
    rw [List.map_cons, List.nodup_cons] at hnd
    rcases List.mem_cons.1 hmem with heq | hmem2
    · cases heq
      simp
    · have hk : ¬(k = k2) := by
        rintro rfl
        exact hnd.1 (List.mem_map.2 ⟨(k, attr), hmem2, rfl⟩)
      have : (k == k2) = false := by simp [hk]
      simp only [this]
      exact mem_lookup hnd.2 hmem2

/-- C5: the Equality filter matches exactly when the entry has an
attribute whose name equals the filter attribute ignoring case and one of
whose values equals the filter value case-sensitively. -/
theorem C5_equality_match (a v : Str) (e : Entry) (hwf : EntryWF e)
    (hv : v ≠ "*".toList) :
    (Filter.equality a v).Match e = true ↔
    ∃ p ∈ e.attrs, lowerStr p.2.name = lowerStr a ∧ v ∈ p.2.vals := by
  rw [Filter.Match]
  constructor
  · intro h
    cases hl : e.GetAttr a with
    | none => rw [hl] at h; cases h
    | some attr =>
      rw [hl] at h
      have hmem : (lowerStr a, attr) ∈ e.attrs := lookup_mem hl
      refine ⟨(lowerStr a, attr), hmem, ?_, ?_⟩
      · exact (hwf.1 _ hmem).symm
      · unfold Attr.HasValue at h
        simpa using h
  · rintro ⟨⟨k, attr⟩, hmem, hname, hval⟩
    have hk : k = lowerStr a := (hwf.1 _ hmem).trans hname
    subst hk
    have hl : e.GetAttr a = some attr := mem_lookup hwf.2 hmem
    rw [hl]
    unfold Attr.HasValue
    simpa using hval

/-- Witness for C5 at a concrete entry with attribute objectClass: top. -/
theorem C5_equality_match_witness :
    (Filter.equality "objectClass".toList "top".toList).Match
      ⟨[⟨"dc".toList, "com".toList⟩],
       [("objectclass".toList,
         ⟨"objectClass".toList, ["top".toList]⟩)]⟩ = true :=
  (C5_equality_match "objectClass".toList "top".toList _
    ⟨by decide, by decide⟩ (by decide)).2
    ⟨("objectclass".toList, ⟨"objectClass".toList, ["top".toList]⟩),
      by decide, by decide, by decide⟩

/-! ### The parser never produces empty And/Or nodes (C6) -/

theorem trimSpace_paren (op : Char) (rest : Str) :
    trimSpace ('(' :: op :: ')' :: rest) =
      '(' :: op :: ')' :: trimRight rest := by
  show trimRight (trimLeft _) = _
  rw [trimLeft_cons_of (show ('(').isWhitespace = false by decide)]
  unfold trimRight
  have h2 : ('(' :: op :: ')' :: rest).reverse =
      rest.reverse ++ ')' :: [op, '('] := by
    simp
  rw [h2, dropWhile_append_not (show (')').isWhitespace = false by decide)]
  simp

/-- With three units of fuel available, an and/or filter whose closing
parenthesis comes before any child is rejected. -/
theorem parseFilter_andor_empty (fuel : Nat) (op : Char) (rest : Str)
    (hop : op = '&' ∨ op = '|') :
    parseFilter (fuel + 3) ('(' :: op :: ')' :: rest) =
      .error .unexpectedInput := by
  rcases hop with rfl | rfl <;> rfl

theorem parseOpFilter_no_empty {l : Str} {f : Filter} {r : Str}
    (h : parseOpFilter l = .ok (f, r)) : Filter.noEmptyAndOr f = true := by
  unfold parseOpFilter at h
  cases h1 : expectRune ')' (l.drop (l.takeWhile (· ≠ ')')).length) with
  | error e =>
    simp only [h1, bind, Except.bind] at h
    cases h
  | ok rest2 =>
    simp only [h1, bind, Except.bind] at h
    cases h2 : (l.takeWhile (· ≠ ')')).findIdx? (· = '=') with
    | none => rw [h2] at h; cases h
    | some idx =>
      rw [h2] at h
      simp only [bind, Except.bind] at h
      cases h3 : validateAttrName
          (if decide (idx > 0) &&
              isOp (((l.takeWhile (· ≠ ')')).drop (idx - 1)).take 2) then
            (l.takeWhile (· ≠ ')')).take (idx - 1)
          else (l.takeWhile (· ≠ ')')).take idx) with
      | error e => rw [h3] at h; cases h
      | ok attr =>
        rw [h3] at h
        simp only [bind, Except.bind] at h
        by_cases h4 : (l.takeWhile (· ≠ ')')).drop (idx + 1) = []
        · rw [if_pos h4] at h; cases h
        · rw [if_neg h4] at h
          by_cases hop : (if decide (idx > 0) &&
              isOp (((l.takeWhile (· ≠ ')')).drop (idx - 1)).take 2) then
                ((l.takeWhile (· ≠ ')')).drop (idx - 1)).take 2
              else ['=']) = ['=']
          · rw [hop] at h
            by_cases hval : (l.takeWhile (· ≠ ')')).drop (idx + 1) = ['*']
            · rw [hval] at h
              simp at h
              rw [← h.1]
              rfl
            · have hd : decide ((l.takeWhile (· ≠ ')')).drop (idx + 1) =
                  ['*']) = false := decide_eq_false hval
              have hc : (decide ((['='] : Str) = ['=']) &&
                  decide ((l.takeWhile (· ≠ ')')).drop (idx + 1) = ['*'])) =
                    false := by
                rw [hd, Bool.and_false]
              rw [hc] at h
              simp only [Bool.false_eq_true, if_false] at h
              rw [if_pos trivial] at h
              simp only [Except.ok.injEq, Prod.mk.injEq] at h
              rw [← h.1]
              rfl
          · have hd : decide ((if decide (idx > 0) &&
                isOp (((l.takeWhile (· ≠ ')')).drop (idx - 1)).take 2) then
                  ((l.takeWhile (· ≠ ')')).drop (idx - 1)).take 2
                else ['=']) = ['=']) = false := decide_eq_false hop
            have hc : (decide ((if decide (idx > 0) &&
                isOp (((l.takeWhile (· ≠ ')')).drop (idx - 1)).take 2) then
                  ((l.takeWhile (· ≠ ')')).drop (idx - 1)).take 2
                else ['=']) = ['=']) &&
                decide ((l.takeWhile (· ≠ ')')).drop (idx + 1) = ['*'])) =
                  false := by
              rw [hd, Bool.false_and]
            rw [hc] at h
            simp only [Bool.false_eq_true, if_false] at h
            rw [if_neg hop] at h
            cases h

/-- Over every fuel bound, successful parses contain no empty And/Or
node. -/
theorem parser_no_empty : ∀ fuel : Nat,
    (∀ l f r, parseFilter fuel l = .ok (f, r) →
       Filter.noEmptyAndOr f = true) ∧
    (∀ op l f r, parseAndOrFilter fuel op l = .ok (f, r) →
       Filter.noEmptyAndOr f = true) ∧
    (∀ l ns r, parseAndOrChildren fuel l = .ok (ns, r) →
       Filter.noEmptyAndOrList ns = true) ∧
    (∀ l f r, parseNotFilter fuel l = .ok (f, r) →
       Filter.noEmptyAndOr f = true)
  | 0 => by
    refine ⟨?_, ?_, ?_, ?_⟩ <;> intro _ <;> intro _ <;> intro _ <;>
      first
      | (intro _ h; cases h)
      | (intro h; cases h)
  | fuel+1 => by
    obtain ⟨ihPF, ihAO, ihCH, ihNOT⟩ := parser_no_empty fuel
    refine ⟨?_, ?_, ?_, ?_⟩
    · intro l f r h
      rw [parseFilter] at h
      cases h1 : expectRune '(' l with
      | error e => rw [h1] at h; cases h
      | ok l1 =>
        rw [h1] at h
        simp only [bind, Except.bind] at h
        cases h2 : peek l1 with
        | error e => rw [h2] at h; cases h
        | ok c =>
          rw [h2] at h
          simp only [bind, Except.bind] at h
          split at h
          · exact ihAO '&' l1 f r h
          · exact ihAO '|' l1 f r h
          · exact ihNOT l1 f r h
          · exact parseOpFilter_no_empty h
    · intro op l f r h
      rw [parseAndOrFilter] at h
      cases h1 : expectRune op l with
      | error e => rw [h1] at h; cases h
      | ok l1 =>
        rw [h1] at h
        simp only [bind, Except.bind] at h
        cases h2 : parseAndOrChildren fuel l1 with
        | error e => rw [h2] at h; cases h
        | ok p =>
          obtain ⟨ns, rest⟩ := p
          rw [h2] at h
          simp only [bind, Except.bind] at h
          by_cases hns : ns.isEmpty = true
          · rw [if_pos hns] at h; cases h
          · rw [if_neg hns] at h
            have hlist := ihCH l1 ns rest h2
            split at h
            · cases h
              rw [Filter.noEmptyAndOr]
              simp only [Bool.not_eq_true] at hns
              simp [hns, hlist]
            · cases h
              rw [Filter.noEmptyAndOr]
              simp only [Bool.not_eq_true] at hns
              simp [hns, hlist]
            · cases h
    · intro l ns r h
      rw [parseAndOrChildren] at h
      cases h1 : peek l with
      | error e => rw [h1] at h; cases h
      | ok c =>
        rw [h1] at h
        simp only [bind, Except.bind] at h
        by_cases hc : c = '('
        · rw [if_pos hc] at h
          cases h2 : parseFilter fuel l with
          | error e => rw [h2] at h; cases h
          | ok p =>
            obtain ⟨n, r1⟩ := p
            rw [h2] at h
            simp only [bind, Except.bind] at h
            cases h3 : parseAndOrChildren fuel r1 with
            | error e => rw [h3] at h; cases h
            | ok q =>
              obtain ⟨ns2, r2⟩ := q
              rw [h3] at h
              simp only [bind, Except.bind] at h
              cases h
              rw [Filter.noEmptyAndOrList]
              simp [ihPF l n r1 h2, ihCH r1 ns2 r h3]
        · rw [if_neg hc] at h
          cases h4 : expectRune ')' l with
          | error e => rw [h4] at h; cases h
          | ok r2 =>
            rw [h4] at h
            simp only [bind, Except.bind] at h
            cases h
            rfl
    · intro l f r h
      rw [parseNotFilter] at h
      cases h1 : expectRune '!' l with
      | error e => rw [h1] at h; cases h
      | ok l1 =>
        rw [h1] at h
        simp only [bind, Except.bind] at h
        cases h2 : parseFilter fuel l1 with
        | error e => rw [h2] at h; cases h
        | ok p =>
          obtain ⟨n, r1⟩ := p
          rw [h2] at h
          simp only [bind, Except.bind] at h
          cases h3 : expectRune ')' r1 with
          | error e => rw [h3] at h; cases h
          | ok r2 =>
            rw [h3] at h
            simp only [bind, Except.bind] at h
            cases h
            rw [Filter.noEmptyAndOr]
            exact ihPF l1 n r1 h2

/-- C6: an AND or OR filter whose ')' comes before any child is a syntax
error with no AST, and no successful Parse ever returns an And/Or node
with zero children anywhere in its AST. -/
theorem C6_no_empty_andor :
    (∀ (op : Char) (rest : Str), op = '&' ∨ op = '|' →
       Parse ('(' :: op :: ')' :: rest) = .error .unexpectedInput) ∧
    (∀ s : Str, ∀ f : Filter, Parse s = .ok f →
       Filter.noEmptyAndOr f = true) := by
  constructor
  · intro op rest hop
    have hf : 2 * ('(' :: op :: ')' :: trimRight rest).length + 2 =
        (2 * (trimRight rest).length + 5) + 3 := by
      simp only [List.length_cons]
      ring
    unfold Parse
    simp only [trimSpace_paren]
    rw [hf, parseFilter_andor_empty _ op (trimRight rest) hop]
  · intro s f h
    have h' : (match parseFilter (2 * (trimSpace s).length + 2) (trimSpace s) with
          | .error e => (Except.error e : Except PErr Filter)
          | .ok (n, rest) =>
              if rest = [] then .ok n else .error .unexpectedInput) = .ok f := h
    cases h1 : parseFilter (2 * (trimSpace s).length + 2) (trimSpace s) with
    | error e => simp only [h1] at h'; cases h'
    | ok p =>
      obtain ⟨n, rest⟩ := p
      simp only [h1] at h'
      by_cases hr : rest = []
      · rw [if_pos hr] at h'
        cases h'
        exact (parser_no_empty _).1 _ _ _ h1
      · rw [if_neg hr] at h'
        cases h'

/-- Witness for C6: "(&)" is rejected, and the AST of "(&(a=*))" has no
empty And/Or node. -/
theorem C6_no_empty_andor_witness :
    Parse "(&)".toList = .error .unexpectedInput ∧
    Filter.noEmptyAndOr (.and [.presence "a".toList]) = true :=
  ⟨C6_no_empty_andor.1 '&' [] (.inl rfl),
   C6_no_empty_andor.2 "(&(a=*))".toList (.and [.presence "a".toList])
     (by rfl)⟩

/-! ### C4: credential verification -/

theorem authValue_true_iff (hashFn : Scheme → List Nat → List Nat)
    (secret v : Str) :
    authValue hashFn secret v = .ok true ↔ valueMatches hashFn secret v := by
  unfold authValue
  cases hs : splitScheme v with
  | none =>
    constructor
    · intro h; simp at h
    · rintro ⟨name, b64, sch, dec, hsp, -⟩
      rw [hs] at hsp; cases hsp
  | some p =>
    obtain ⟨name, b64⟩ := p
    cases hn : schemeOfName name with
    | none =>
      constructor
      · intro h; simp [hn] at h
      · rintro ⟨name2, b642, sch, dec, hsp, hn2, -⟩
        rw [hs] at hsp
        simp only [Option.some.injEq, Prod.mk.injEq] at hsp
        obtain ⟨rfl, rfl⟩ := hsp
        rw [hn] at hn2; cases hn2
    | some sch =>
      cases hd : b64Decode b64 with
      | none =>
        constructor
        · intro h; simp [hn, hd] at h
        · rintro ⟨name2, b642, sch2, dec, hsp, hn2, hd2, -⟩
          rw [hs] at hsp
          simp only [Option.some.injEq, Prod.mk.injEq] at hsp
          obtain ⟨rfl, rfl⟩ := hsp
          rw [hd] at hd2; cases hd2
      | some dec =>
        simp only [hn, hd]
        by_cases hlen : dec.length < sch.digestLen
        · rw [if_pos hlen]
          constructor
          · intro h; simp at h
          · rintro ⟨name2, b642, sch2, dec2, hsp, hn2, hd2, hle, -⟩
            rw [hs] at hsp
            simp only [Option.some.injEq, Prod.mk.injEq] at hsp
            obtain ⟨rfl, rfl⟩ := hsp
            rw [hn] at hn2
            simp only [Option.some.injEq] at hn2
            subst hn2
            rw [hd] at hd2
            simp only [Option.some.injEq] at hd2
            subst hd2
            omega
        · rw [if_neg hlen]
          by_cases hsalt : dec.drop sch.digestLen = []
          · rw [if_pos hsalt]
            constructor
            · intro h; simp at h
            · rintro ⟨name2, b642, sch2, dec2, hsp, hn2, hd2, hle, hne, -⟩
              rw [hs] at hsp
              simp only [Option.some.injEq, Prod.mk.injEq] at hsp
              obtain ⟨rfl, rfl⟩ := hsp
              rw [hn] at hn2
              simp only [Option.some.injEq] at hn2
              subst hn2
              rw [hd] at hd2
              simp only [Option.some.injEq] at hd2
              subst hd2
              exact (hne hsalt).elim
          · rw [if_neg hsalt]
            constructor
            · intro h
              simp only [Except.ok.injEq, beq_iff_eq] at h
              exact ⟨name, b64, sch, dec, hs, hn, hd, by omega, hsalt, h⟩
            · rintro ⟨name2, b642, sch2, dec2, hsp, hn2, hd2, hle, hne, heq⟩
              rw [hs] at hsp
              simp only [Option.some.injEq, Prod.mk.injEq] at hsp
              obtain ⟨rfl, rfl⟩ := hsp
              rw [hn] at hn2
              simp only [Option.some.injEq] at hn2
              subst hn2
              rw [hd] at hd2
              simp only [Option.some.injEq] at hd2
              subst hd2
              simp [heq]

theorem authLoop_ok_exists (hashFn : Scheme → List Nat → List Nat)
    (secret : Str) :
    ∀ l : List Str, authLoop hashFn secret l = .ok () →
      ∃ v ∈ l, authValue hashFn secret v = .ok true
  | [], h => by rw [authLoop] at h; cases h
  | v :: rest, h => by
    rw [authLoop] at h
    cases hv : authValue hashFn secret v with
    | error e => rw [hv] at h; cases h
    | ok b =>
      cases b with
      | true => exact ⟨v, .head _, hv⟩
      | false =>
        simp only [hv] at h
        obtain ⟨u, hu, hmatch⟩ := authLoop_ok_exists hashFn secret rest h
        exact ⟨u, .tail _ hu, hmatch⟩

theorem authLoop_match_ok (hashFn : Scheme → List Nat → List Nat)
    (secret : Str) :
    ∀ l : List Str, (∀ v ∈ l, ∃ b, authValue hashFn secret v = .ok b) →
      (∃ v ∈ l, authValue hashFn secret v = .ok true) →
      authLoop hashFn secret l = .ok ()
  | [], _, hex => by
    obtain ⟨v, hv, -⟩ := hex
    cases hv
  | v :: rest, hb, hex => by
    rw [authLoop]
    obtain ⟨b, hvb⟩ := hb v (.head _)
    cases b with
    | true => rw [hvb]
    | false =>
      rw [hvb]
      obtain ⟨u, hu, hmatch⟩ := hex
      rcases List.mem_cons.1 hu with rfl | hu2
      · rw [hvb] at hmatch
        simp at hmatch
      · exact authLoop_match_ok hashFn secret rest
          (fun w hw => hb w (.tail _ hw)) ⟨u, hu2, hmatch⟩

theorem authLoop_all_false (hashFn : Scheme → List Nat → List Nat)
    (secret : Str) :
    ∀ l : List Str, (∀ v ∈ l, authValue hashFn secret v = .ok false) →
      authLoop hashFn secret l = .error .authenticationFailed
  | [], _ => rfl
  | v :: rest, hall => by
    rw [authLoop, hall v (.head _)]
    exact authLoop_all_false hashFn secret rest fun w hw => hall w (.tail _ hw)

theorem authLoop_fatal (hashFn : Scheme → List Nat → List Nat)
    (secret v : Str) (post : List Str) (err : AuthErr)
    (hv : authValue hashFn secret v = .error err) :
    ∀ pre : List Str, (∀ u ∈ pre, authValue hashFn secret u = .ok false) →
      authLoop hashFn secret (pre ++ v :: post) = .error err
  | [], _ => by rw [List.nil_append, authLoop, hv]
  | u :: pre, hpre => by
    rw [List.cons_append, authLoop, hpre u (.head _)]
    exact authLoop_fatal hashFn secret v post err hv pre
      fun w hw => hpre w (.tail _ hw)

/-- C4: for an entry whose objectClass is in the account allow-list,
Authenticate succeeds exactly when some stored userPassword value carries a
recognized scheme wrapper whose decoded digest equals the scheme's hash of
secret and salt; an unrecognized scheme or a missing wrapper merely makes
that value a non-match; failure is reported only after all values are
examined, while malformed base64, a too-short decode, or an empty salt
abort immediately with their specific error. -/
theorem C4_authenticate (hashFn : Scheme → List Nat → List Nat) (e : Entry)
    (secret : Str) (helig : eligible e = true) :
    (Entry.Authenticate hashFn e secret = .ok () →
       ∃ v ∈ pwVals e, valueMatches hashFn secret v) ∧
    ((∀ v ∈ pwVals e, ∃ b, authValue hashFn secret v = .ok b) →
       (∃ v ∈ pwVals e, valueMatches hashFn secret v) →
       Entry.Authenticate hashFn e secret = .ok ()) ∧
    ((∀ v ∈ pwVals e, authValue hashFn secret v = .ok false) →
       Entry.Authenticate hashFn e secret = .error .authenticationFailed) ∧
    (∀ pre v post err, pwVals e = pre ++ v :: post →
       (∀ u ∈ pre, authValue hashFn secret u = .ok false) →
       authValue hashFn secret v = .error err →
       Entry.Authenticate hashFn e secret = .error err) ∧
    (∀ v : Str, (splitScheme v = none ∨
        ∃ n r, splitScheme v = some (n, r) ∧ schemeOfName n = none) →
       authValue hashFn secret v = .ok false) := by
  rw [Entry.Authenticate, if_pos helig]
  refine ⟨?_, ?_, ?_, ?_, ?_⟩
  · intro h
    obtain ⟨v, hv, hmatch⟩ := authLoop_ok_exists hashFn secret (pwVals e) h
    exact ⟨v, hv, (authValue_true_iff hashFn secret v).1 hmatch⟩
  · intro hb hex
    obtain ⟨v, hv, hmatch⟩ := hex
    exact authLoop_match_ok hashFn secret (pwVals e) hb
      ⟨v, hv, (authValue_true_iff hashFn secret v).2 hmatch⟩
  · exact authLoop_all_false hashFn secret (pwVals e)
  · intro pre v post err hsplit hpre hv
    rw [hsplit]
    exact authLoop_fatal hashFn secret v post err hv pre hpre
  · intro v hcase
    rcases hcase with hnone | ⟨n, r, hsome, hnosch⟩
    · simp only [authValue, hnone]
    · simp only [authValue, hsome, hnosch]

/-- Witness for C4: with the digest function fixed to all-zero digests, an
eligible entry whose userPassword is an SSHA value decoding to twenty zero
digest bytes plus a zero salt byte authenticates successfully. -/
theorem C4_authenticate_witness :
    Entry.Authenticate (fun sch _ => List.replicate sch.digestLen 0)
      { dn := [⟨"dc".toList, "example".toList⟩],
        attrs := [("objectclass".toList,
                    { name := "objectClass".toList,
                      vals := ["posixAccount".toList] }),
                  ("userpassword".toList,
                    { name := "userPassword".toList,
                      vals := ["\x7bSSHA\x7d".toList ++
                        List.replicate 28 'A'] })] }
      "password".toList = .ok () := by
  refine (C4_authenticate (fun sch _ => List.replicate sch.digestLen 0) _
      "password".toList (by decide)).2.1 ?_ ?_
  · intro v hv
    have hv2 : v = "\x7bSSHA\x7d".toList ++ List.replicate 28 'A' := by
      simpa [pwVals, Entry.GetAttr, lowerStr, List.lookup] using hv
    subst hv2
    exact ⟨true, rfl⟩
  · refine ⟨"\x7bSSHA\x7d".toList ++ List.replicate 28 'A', ?_,
      "SSHA".toList, List.replicate 28 'A', Scheme.ssha, List.replicate 21 0,
      by decide, rfl, by decide, by decide, by decide, by decide⟩
    simp [pwVals, Entry.GetAttr, lowerStr, List.lookup]


/-! ### C10: NewEntryFromMap duplicate attributes -/

theorem lookup_isSome_iff_mem_keys :
    ∀ (l : List (Str × Attr)) (key : Str),
      (l.lookup key).isSome = true ↔ key ∈ l.map Prod.fst
  | [], key => by
    constructor
    · intro h; cases h
    · intro h; cases h
  | (k2, a2) :: rest, key => by
    rw [List.lookup]
    by_cases hk : key = k2
    · subst hk
      have ht : (key == key) = true := beq_self_eq_true key
      simp only [ht, List.map_cons, List.mem_cons]
      constructor
      · intro _; exact .inl trivial
      · intro _; rfl
    · have hf : (key == k2) = false := by simp [hk]
      simp only [hf, List.map_cons, List.mem_cons]
      rw [lookup_isSome_iff_mem_keys rest key]
      constructor
      · exact fun h => .inr h
      · intro h
        rcases h with h | h
        · exact absurd h hk
        · exact h

theorem keys_mapInsert_self (k : Str) (a : Attr) :
    ∀ l : List (Str × Attr), k ∈ (mapInsert k a l).map Prod.fst
  | [] => by
    rw [mapInsert]
    exact .head _
  | (k2, a2) :: rest => by
    rw [mapInsert]
    by_cases hk : k2 = k
    · rw [if_pos hk]
      exact .head _
    · rw [if_neg hk]
      simp only [List.map_cons, List.mem_cons]
      exact .inr (keys_mapInsert_self k a rest)

theorem keys_mapInsert_mono (k key : Str) (a : Attr) :
    ∀ l : List (Str × Attr),
      key ∈ l.map Prod.fst → key ∈ (mapInsert k a l).map Prod.fst
  | [] => by
    intro h
    cases h
  | (k2, a2) :: rest => by
    intro h
    rw [mapInsert]
    by_cases hk : k2 = k
    · rw [if_pos hk]
      simp only [List.map_cons, List.mem_cons] at h ⊢
      rcases h with h | h
      · exact .inl (h.trans hk)
      · exact .inr h
    · rw [if_neg hk]
      simp only [List.map_cons, List.mem_cons] at h ⊢
      rcases h with h | h
      · exact .inl h
      · exact .inr (keys_mapInsert_mono k key a rest h)

theorem mapInsert_mem {p : Str × Attr} (k : Str) (a : Attr) :
    ∀ l : List (Str × Attr), p ∈ mapInsert k a l → p = (k, a) ∨ p ∈ l
  | [] => by
    intro h
    rw [mapInsert] at h
    rcases List.mem_cons.1 h with h1 | h1
    · exact .inl h1
    · cases h1
  | (k2, a2) :: rest => by
    intro h
    rw [mapInsert] at h
    by_cases hk : k2 = k
    · rw [if_pos hk] at h
      rcases List.mem_cons.1 h with h1 | h1
      · exact .inl h1
      · exact .inr (.tail _ h1)
    · rw [if_neg hk] at h
      rcases List.mem_cons.1 h with h1 | h1
      · exact .inr (h1 ▸ .head _)
      · rcases mapInsert_mem k a rest h1 with h2 | h2
        · exact .inl h2
        · exact .inr (.tail _ h2)

theorem atomVals_ok : ∀ {l : List JAtom},
    (∀ a ∈ l, a ≠ JAtom.other) → ∃ vs, atomVals l = .ok vs
  | [] => fun _ => ⟨[], rfl⟩
  | a :: rest => fun h => by
    obtain ⟨vs, hvs⟩ := atomVals_ok fun x hx => h x (.tail _ hx)
    have hval : ∃ v, atomVal a = .ok v := by
      cases a with
      | str s => exact ⟨s, rfl⟩
      | num r => exact ⟨r, rfl⟩
      | boolean b =>
        cases b with
        | false => exact ⟨"false".toList, rfl⟩
        | true => exact ⟨"true".toList, rfl⟩
      | other => exact absurd rfl (h _ (.head _))
    obtain ⟨v, hv⟩ := hval
    exact ⟨v :: vs, by rw [atomVals]; simp only [hv, hvs]⟩

theorem procPair_ok_cases {e : Entry} {k : Str} {v : JVal} {e2 : Entry}
    (h : procPair e k v = .ok e2) :
    (lowerStr k = "dn".toList ∧ e2.attrs = e.attrs) ∨
    (lowerStr k ≠ "dn".toList ∧ e.GetAttr k = none ∧
      ∃ vs, e2 = e.AddAttr { name := k, vals := vs }) := by
  by_cases hf : lowerStr k = "dn".toList
  · left
    refine ⟨hf, ?_⟩
    rw [procPair, if_pos hf] at h
    split at h
    · cases h
    · split at h
      · cases h
      · split at h
        · cases h
        · split at h
          · cases h
          · split at h
            · cases h
            · split at h
              · cases h
              · cases h
                rfl
      · cases h
  · right
    rw [procPair, if_neg hf] at h
    cases hga : e.GetAttr k with
    | some attr =>
      simp only [hga] at h
      cases h
    | none =>
      simp only [hga] at h
      cases hav : atomVals v.asList with
      | error err =>
        simp only [hav] at h
        cases h
      | ok vs =>
        simp only [hav] at h
        cases h
        exact ⟨hf, rfl, vs, rfl⟩

theorem procPair_error_cases {e : Entry} {k : Str} {v : JVal} {err : EErr}
    (hf : lowerStr k ≠ "dn".toList)
    (hvals : ∀ a ∈ v.asList, a ≠ JAtom.other)
    (h : procPair e k v = .error err) :
    ∃ attr, e.GetAttr k = some attr ∧ err = .dupAttr k attr.name := by
  rw [procPair, if_neg hf] at h
  cases hga : e.GetAttr k with
  | some attr =>
    simp only [hga] at h
    cases h
    exact ⟨attr, rfl, rfl⟩
  | none =>
    simp only [hga] at h
    obtain ⟨vs, hvs⟩ := atomVals_ok hvals
    simp only [hvs] at h
    cases h

theorem procPair_dn_ok {e : Entry} {k : Str} {v : JVal}
    (hf : lowerStr k = "dn".toList) (hdn : dnOK v)
    (hempty : e.dn.IsEmpty = true) :
    ∃ d, procPair e k v = .ok { e with dn := d } ∧ d ≠ [] := by
  obtain ⟨s, hlist, htrim, d, hnew, hdne⟩ := hdn
  refine ⟨d, ?_, hdne⟩
  rw [procPair, if_pos hf, hlist]
  have h1 : ¬ (1 < ([JAtom.str s] : List JAtom).length) := by simp
  rw [if_neg h1]
  show (if trimSpace s = [] then (Except.error EErr.dnNotString : Except EErr Entry)
      else if !e.dn.IsEmpty then Except.error EErr.dnAlreadySet
      else match NewDN s with
        | .error err => Except.error (EErr.rdnErr err)
        | .ok dn =>
          if dn.IsEmpty then Except.error EErr.dnEmpty
          else Except.ok { e with dn := dn }) = Except.ok { e with dn := d }
  rw [if_neg htrim]
  have h2 : (!e.dn.IsEmpty) = false := by rw [hempty]; rfl
  rw [h2]
  simp only [Bool.false_eq_true, if_false, hnew]
  have h3 : DN.IsEmpty d = false := by
    cases d with
    | nil => exact absurd rfl hdne
    | cons a l => rfl
  rw [h3]
  simp only [Bool.false_eq_true, if_false]

theorem procPair_ok_key {e : Entry} {k : Str} {v : JVal} {e2 : Entry}
    (hf : lowerStr k ≠ "dn".toList) (h : procPair e k v = .ok e2) :
    lowerStr k ∈ e2.attrs.map Prod.fst := by
  rcases procPair_ok_cases h with ⟨hfd, -⟩ | ⟨-, -, vs, rfl⟩
  · exact absurd hfd hf
  · exact keys_mapInsert_self _ _ _

theorem procPair_key_error {e : Entry} (k : Str) (v : JVal)
    (hf : lowerStr k ≠ "dn".toList)
    (hkey : lowerStr k ∈ e.attrs.map Prod.fst) :
    ∃ attr : Attr, procPair e k v = .error (.dupAttr k attr.name) := by
  have hsome : (e.attrs.lookup (lowerStr k)).isSome = true :=
    (lookup_isSome_iff_mem_keys e.attrs (lowerStr k)).2 hkey
  obtain ⟨attr, hattr⟩ := Option.isSome_iff_exists.1 hsome
  have hga : e.GetAttr k = some attr := hattr
  rw [procPair, if_neg hf]
  simp only [hga]
  exact ⟨attr, rfl⟩

theorem procPairs_append (e : Entry) (m1 m2 : List (Str × JVal)) :
    procPairs e (m1 ++ m2) =
      match procPairs e m1 with
      | .error err => .error err
      | .ok e1 => procPairs e1 m2 := by
  induction m1 generalizing e with
  | nil => rfl
  | cons p rest ih =>
    cases hp : procPair e p.1 p.2 with
    | error err => simp only [List.cons_append, procPairs, hp]
    | ok e2 =>
      simp only [List.cons_append, procPairs, hp]
      exact ih e2

theorem procPairs_mono_keys {key : Str} :
    ∀ (m : List (Str × JVal)) (e e' : Entry), procPairs e m = .ok e' →
      key ∈ e.attrs.map Prod.fst → key ∈ e'.attrs.map Prod.fst
  | [], e, e' => by
    intro h hk
    rw [procPairs] at h
    cases h
    exact hk
  | p :: rest, e, e' => by
    intro h hk
    rw [procPairs] at h
    cases hp : procPair e p.1 p.2 with
    | error err =>
      simp only [hp] at h
      cases h
    | ok e2 =>
      simp only [hp] at h
      refine procPairs_mono_keys rest e2 e' h ?_
      rcases procPair_ok_cases hp with ⟨-, hattrs⟩ | ⟨-, -, vs, rfl⟩
      · rw [hattrs]; exact hk
      · exact keys_mapInsert_mono _ _ _ _ hk

theorem procPairs_error_shape :
    ∀ (m : List (Str × JVal)) (e : Entry) (err : EErr),
      (∀ p ∈ m, ∀ a ∈ JVal.asList p.2, a ≠ JAtom.other) →
      (∀ p ∈ m, lowerStr p.1 = "dn".toList → dnOK p.2) →
      m.countP (fun p => lowerStr p.1 == "dn".toList) ≤
        (if e.dn.IsEmpty then 1 else 0) →
      procPairs e m = .error err →
      ∃ n1 n2, err = EErr.dupAttr n1 n2
  | [], e, err => by
    intro _ _ _ h
    rw [procPairs] at h
    cases h
  | p :: rest, e, err => by
    intro hvals hdn hcount h
    rw [procPairs] at h
    by_cases hf : lowerStr p.1 = "dn".toList
    · have hcnt : rest.countP (fun q => lowerStr q.1 == "dn".toList) + 1 ≤
          if e.dn.IsEmpty then 1 else 0 := by
        rw [List.countP_cons] at hcount
        simpa [hf] using hcount
      have hemp : e.dn.IsEmpty = true := by
        by_contra hne
        rw [if_neg hne] at hcnt
        omega
      obtain ⟨d, hpd, hdne⟩ := procPair_dn_ok hf (hdn p (.head _) hf) hemp
      simp only [hpd] at h
      refine procPairs_error_shape rest _ err (fun q hq => hvals q (.tail _ hq))
        (fun q hq => hdn q (.tail _ hq)) ?_ h
      have hdf : DN.IsEmpty d = false := by
        cases d with
        | nil => exact absurd rfl hdne
        | cons a l => rfl
      show rest.countP _ ≤ if DN.IsEmpty d then 1 else 0
      rw [hdf]
      rw [if_pos hemp] at hcnt
      simp only [Bool.false_eq_true, if_false]
      omega
    · cases hp : procPair e p.1 p.2 with
      | error err2 =>
        simp only [hp] at h
        cases h
        obtain ⟨attr, -, heq⟩ := procPair_error_cases hf (hvals p (.head _)) hp
        exact ⟨p.1, attr.name, heq⟩
      | ok e2 =>
        simp only [hp] at h
        refine procPairs_error_shape rest e2 err (fun q hq => hvals q (.tail _ hq))
          (fun q hq => hdn q (.tail _ hq)) ?_ h
        rcases procPair_ok_cases hp with ⟨hfd, -⟩ | ⟨-, -, vs, rfl⟩
        · exact absurd hfd hf
        · rw [List.countP_cons] at hcount
          have hpf : (lowerStr p.1 == "dn".toList) = false := by
            rw [beq_eq_false_iff_ne]
            exact hf
          rw [hpf] at hcount
          simpa using hcount

theorem procPairs_ok_attrs :
    ∀ (m : List (Str × JVal)) (e e' : Entry), procPairs e m = .ok e' →
      ∀ p ∈ e'.attrs,
        p ∈ e.attrs ∨ (p.1 = lowerStr p.2.name ∧ ∃ v, (p.2.name, v) ∈ m)
  | [], e, e' => by
    intro h p hp
    rw [procPairs] at h
    cases h
    exact .inl hp
  | q :: rest, e, e' => by
    intro h p hp
    rw [procPairs] at h
    cases hq : procPair e q.1 q.2 with
    | error err =>
      simp only [hq] at h
      cases h
    | ok e2 =>
      simp only [hq] at h
      rcases procPairs_ok_attrs rest e2 e' h p hp with hmem | ⟨h1, v, h2⟩
      · rcases procPair_ok_cases hq with ⟨-, hattrs⟩ | ⟨-, -, vs, rfl⟩
        · rw [hattrs] at hmem
          exact .inl hmem
        · have hmem2 : p ∈ mapInsert (lowerStr q.1)
              { name := q.1, vals := vs } e.attrs := hmem
          rcases mapInsert_mem _ _ _ hmem2 with heq | hmem3
          · right
            subst heq
            exact ⟨rfl, q.2, .head _⟩
          · exact .inl hmem3
      · exact .inr ⟨h1, v, .tail _ h2⟩

/-- C10: a well-formed input map with two distinct non-dn keys that are
equal ignoring case always makes NewEntryFromMap fail with a
duplicate-attribute error (never merging them), and on success every
stored attribute is keyed by the lower-case name while the Attr itself
preserves the original case of a key of the input map. -/
theorem C10_duplicate_attribute :
    (∀ (m : List (Str × JVal)) (k1 : Str) (v1 : JVal) (k2 : Str) (v2 : JVal)
        (m1 m2 m3 : List (Str × JVal)),
       m = m1 ++ (k1, v1) :: m2 ++ (k2, v2) :: m3 →
       lowerStr k1 ≠ "dn".toList → lowerStr k2 ≠ "dn".toList →
       lowerStr k1 = lowerStr k2 →
       (∀ p ∈ m, ∀ a ∈ JVal.asList p.2, a ≠ JAtom.other) →
       (∀ p ∈ m, lowerStr p.1 = "dn".toList → dnOK p.2) →
       m.countP (fun p => lowerStr p.1 == "dn".toList) ≤ 1 →
       ∃ n1 n2, NewEntryFromMap m = .error (.dupAttr n1 n2)) ∧
    (∀ (m : List (Str × JVal)) (e : Entry), NewEntryFromMap m = .ok e →
       ∀ p ∈ e.attrs, p.1 = lowerStr p.2.name ∧ ∃ v, (p.2.name, v) ∈ m) := by
  constructor
  · intro m k1 v1 k2 v2 m1 m2 m3 hm hf1 hf2 hfold hvals hdn hcount
    cases hP : procPairs { dn := [], attrs := [] } m with
    | ok efin =>
      exfalso
      subst hm
      rw [procPairs_append] at hP
      cases hA : procPairs { dn := [], attrs := [] } (m1 ++ (k1, v1) :: m2) with
      | error e1 =>
        simp only [hA] at hP
        cases hP
      | ok eA =>
        simp only [hA] at hP
        rw [procPairs_append] at hA
        cases h1 : procPairs { dn := [], attrs := [] } m1 with
        | error e1 =>
          simp only [h1] at hA
          cases hA
        | ok e1 =>
          simp only [h1] at hA
          rw [procPairs] at hA
          cases h2 : procPair e1 k1 v1 with
          | error err =>
            simp only [h2] at hA
            cases hA
          | ok e2 =>
            simp only [h2] at hA
            have hkey2 : lowerStr k1 ∈ e2.attrs.map Prod.fst :=
              procPair_ok_key hf1 h2
            have hkeyA : lowerStr k2 ∈ eA.attrs.map Prod.fst := by
              rw [← hfold]
              exact procPairs_mono_keys m2 e2 eA hA hkey2
            obtain ⟨attr, h4⟩ := procPair_key_error k2 v2 hf2 hkeyA
            rw [procPairs] at hP
            simp only [h4] at hP
            cases hP
    | error err =>
      have hshape := procPairs_error_shape m { dn := [], attrs := [] } err
        hvals hdn (by simpa using hcount) hP
      obtain ⟨n1, n2, rfl⟩ := hshape
      refine ⟨n1, n2, ?_⟩
      rw [NewEntryFromMap]
      simp only [hP]
  · intro m e h p hp
    rw [NewEntryFromMap] at h
    cases hP : procPairs { dn := [], attrs := [] } m with
    | error err =>
      simp only [hP] at h
      cases h
    | ok e0 =>
      simp only [hP] at h
      by_cases hdn0 : e0.dn.IsEmpty
      · rw [if_pos hdn0] at h
        cases h
      · rw [if_neg hdn0] at h
        cases hga : e0.GetAttr "objectClass".toList with
        | none =>
          simp only [hga] at h
          cases h
        | some a =>
          simp only [hga] at h
          cases h
          rcases procPairs_ok_attrs m _ _ hP p hp with hmem | hres
          · cases hmem
          · exact hres

/-- Witness for C10: a map with keys "cn" and "CN" (plus a valid dn and an
objectClass) is rejected with a duplicate-attribute error. -/
theorem C10_duplicate_attribute_witness :
    ∃ n1 n2,
      NewEntryFromMap
        [("cn".toList, JVal.atom (JAtom.str "x".toList)),
         ("dn".toList, JVal.atom (JAtom.str "dc=example".toList)),
         ("CN".toList, JVal.atom (JAtom.str "y".toList)),
         ("objectClass".toList, JVal.atom (JAtom.str "top".toList))] =
        Except.error (EErr.dupAttr n1 n2) := by
  refine C10_duplicate_attribute.1 _ "cn".toList (JVal.atom (JAtom.str "x".toList))
    "CN".toList (JVal.atom (JAtom.str "y".toList)) []
    [("dn".toList, JVal.atom (JAtom.str "dc=example".toList))]
    [("objectClass".toList, JVal.atom (JAtom.str "top".toList))]
    rfl (by decide) (by decide) (by decide) (by decide) ?_ (by decide)
  intro p hp hfd
  simp only [List.mem_cons, List.not_mem_nil, or_false] at hp
  rcases hp with rfl | rfl | rfl | rfl
  · exact absurd hfd (by decide)
  · exact ⟨"dc=example".toList, rfl, by decide,
      [⟨"dc".toList, "example".toList⟩], rfl, by decide⟩
  · exact absurd hfd (by decide)
  · exact absurd hfd (by decide)


end Flapjak
